import Mathlib

/-!
# Verification of the FAT32 engine in `src/drivers/fat32.c`

This file gives a shallow embedding of the FAT32 filesystem engine
(`src/drivers/fat32.c`) and proves or refutes the specification claims about
it.  Machine integers are modelled as `Nat` with explicit `% 2^32` where
uint32 overflow matters.  Block transport (`sd_read_block`/`sd_write_block`)
is modelled as infallible: the claims under study are about the engine's
logic, not about transport failures.  Sector payload bytes that do not carry
filesystem metadata (file data content) are not modelled; all FAT-table,
directory-slot and FSInfo mutations are.
-/

set_option maxRecDepth 10000

namespace Fat32

/-- Error codes, from `fat32_error_t` in `fat32.h`. -/
inductive Err where
  | noCard
  | initFailed
  | readFailed
  | writeFailed
  | invalidFormat
  | notMounted
  | fileNotFound
  | invalidPath
  | notADirectory
  | notAFile
  | dirNotEmpty
  | dirNotFound
  | diskFull
  | fileExists
  | invalidPosition
  | invalidParameter
  | invalidSectorSize
  | invalidClusterSize
  | invalidFats
  | invalidReservedSectors
  deriving DecidableEq, Repr

/-- `FAT32_FAT_ENTRY_EOC` (0x0FFFFFF8): first end-of-chain value. -/
def EOC : Nat := 0x0FFFFFF8

/-- `FAT32_FAT_ENTRY_FREE` (0). -/
def FREE : Nat := 0

/-- The uint32 sentinel `0xFFFFFFFF` marking an unknown FSInfo hint. -/
def UNKNOWN : Nat := 0xFFFFFFFF

/--
Mutable volume state relevant to the cluster allocator: the FAT table
(raw 32-bit entries, one per cluster index, as laid out 4 bytes per entry in
the FAT sectors of the C code), the cached FSInfo hints `fsinfo.free_count`
and `fsinfo.next_free`, and the derived geometry `cluster_count` and
`boot_sector.sectors_per_cluster` (which the engine never mutates after
mount).  `update_fsinfo` writes the hint cache back to the FSInfo sector;
since the transport is infallible and nothing reads that sector back while
mounted, the cache itself is the authoritative model of it.
-/
structure Fs where
  fat : Nat → Nat
  freeCount : Nat
  nextFree : Nat
  clusterCount : Nat
  spc : Nat
  deriving Inhabited

/-- Bytes per cluster: `boot_sector.sectors_per_cluster * FAT32_SECTOR_SIZE`. -/
def Fs.bpc (s : Fs) : Nat := s.spc * 512

/-- Open-file state, from `fat32_file_t` in `fat32.h`. -/
structure File where
  is_open : Bool
  last_entry_read : Bool
  attributes : Nat
  start_cluster : Nat
  current_cluster : Nat
  file_size : Nat
  position : Nat
  dir_entry_sector : Nat
  dir_entry_offset : Nat
  deriving DecidableEq, Repr

/--
`read_cluster_fat_entry` (fat32.c:181): rejects cluster indices below 2,
otherwise returns the 4-byte FAT entry with the top 4 bits masked off
(`entry & 0x0FFFFFFF`).  The FAT-sector read/packing (4 bytes per entry at
`reserved_sectors*512 + cluster*4`) is modelled as indexing the entry array.
-/
def read_cluster_fat_entry (s : Fs) (cluster : Nat) : Except Err Nat :=
  if cluster < 2 then .error .invalidParameter
  else .ok (s.fat cluster &&& 0x0FFFFFFF)

/--
`write_cluster_fat_entry` (fat32.c:201): rejects cluster indices below 2,
otherwise replaces the low 28 bits of the stored entry with `value`'s low 28
bits, preserving the top 4 (`entry = (entry & 0xF0000000) | (value &
0x0FFFFFFF)`).  Entries of other clusters are untouched (the C reads the
whole FAT sector, patches 4 bytes and writes it back).
-/
def write_cluster_fat_entry (s : Fs) (cluster value : Nat) : Except Err Fs :=
  if cluster < 2 then .error .invalidParameter
  else .ok { s with
    fat := fun x =>
      if x = cluster then (s.fat cluster &&& 0xF0000000) ||| (value &&& 0x0FFFFFFF)
      else s.fat x }

theorem and_low_mask (x : Nat) : x &&& 0x0FFFFFFF = x % 2 ^ 28 := by
  have h : (0x0FFFFFFF : Nat) = 2 ^ 28 - 1 := by norm_num
  rw [h, Nat.and_pow_two_sub_one_eq_mod]

theorem entry_low_bits (x v : Nat) :
    ((x &&& 0xF0000000) ||| (v &&& 0x0FFFFFFF)) &&& 0x0FFFFFFF = v &&& 0x0FFFFFFF := by
  rw [Nat.and_distrib_right, Nat.and_assoc, Nat.and_assoc]
  have h1 : (0xF0000000 &&& 0x0FFFFFFF : Nat) = 0 := by decide
  have h2 : (0x0FFFFFFF &&& 0x0FFFFFFF : Nat) = 0x0FFFFFFF := by decide
  rw [h1, h2, Nat.and_zero, Nat.zero_or]

theorem entry_high_bits (x v : Nat) :
    ((x &&& 0xF0000000) ||| (v &&& 0x0FFFFFFF)) &&& 0xF0000000 = x &&& 0xF0000000 := by
  rw [Nat.and_distrib_right, Nat.and_assoc, Nat.and_assoc]
  have h1 : (0xF0000000 &&& 0xF0000000 : Nat) = 0xF0000000 := by decide
  have h2 : (0x0FFFFFFF &&& 0xF0000000 : Nat) = 0 := by decide
  rw [h1, h2, Nat.and_zero, Nat.or_zero]

/-- The all-zero `fat32_file_t`, the result of `memset(file, 0, sizeof(fat32_file_t))`. -/
def zeroFile : File :=
  { is_open := false, last_entry_read := false, attributes := 0, start_cluster := 0,
    current_cluster := 0, file_size := 0, position := 0, dir_entry_sector := 0,
    dir_entry_offset := 0 }

/--
`fat32_close` (fat32.c:1382): a null handle (`none`) or a non-open handle is
left untouched; an open handle is zeroed wholesale by `memset`.  The return
value is always `FAT32_OK`.  The polymorphic `disk` argument is threaded
through unchanged, reflecting that the body performs no block I/O.
-/
def fat32_close {α : Type} (disk : α) (file : Option File) : Except Err (α × Option File) :=
  match file with
  | none => .ok (disk, none)
  | some f => if f.is_open then .ok (disk, some zeroFile) else .ok (disk, some f)

/-- uint32 multiplication, as in `num_fats * fat_size_32`. -/
def mul32 (a b : Nat) : Nat := a * b % 2 ^ 32

/-- uint32 addition. -/
def add32 (a b : Nat) : Nat := (a + b) % 2 ^ 32

/-- uint32 subtraction with wraparound (operands already reduced mod 2^32). -/
def sub32 (a b : Nat) : Nat := (a % 2 ^ 32 + 2 ^ 32 - b % 2 ^ 32) % 2 ^ 32

/-- The `fat32_boot_sector_t` fields that `fat32_mount` consults. -/
structure BootSector where
  jump0 : Nat
  bytes_per_sector : Nat
  sectors_per_cluster : Nat
  reserved_sectors : Nat
  num_fats : Nat
  fat_size_16 : Nat
  total_sectors_32 : Nat
  fat_size_32 : Nat
  root_cluster : Nat
  fat32_info : Nat
  deriving DecidableEq, Repr

/-- The `fat32_fsinfo_t` fields that `fat32_mount` consults. -/
structure FsInfoSector where
  lead_sig : Nat
  struc_sig : Nat
  free_count : Nat
  next_free : Nat
  trail_sig : Nat
  deriving DecidableEq, Repr

/--
`is_valid_fat32_boot_sector` (fat32.c:134): field checks in source order.
`FAT32_SECTOR_SIZE` is 512; the power-of-two test is `spc & (spc-1) == 0`.
-/
def is_valid_fat32_boot_sector (bs : BootSector) : Except Err Unit :=
  if bs.bytes_per_sector ≠ 512 then .error .invalidFormat
  else if bs.sectors_per_cluster = 0 ∨ 128 < bs.sectors_per_cluster ∨
      (bs.sectors_per_cluster &&& (bs.sectors_per_cluster - 1)) ≠ 0 then .error .invalidFormat
  else if bs.num_fats = 0 ∨ 2 < bs.num_fats then .error .invalidFormat
  else if bs.reserved_sectors = 0 then .error .invalidFormat
  else if bs.fat_size_16 ≠ 0 ∨ bs.fat_size_32 = 0 then .error .invalidFormat
  else if bs.total_sectors_32 = 0 then .error .invalidFormat
  else .ok ()

/-- `data_region_sectors` as computed at fat32.c:412 (uint32 arithmetic). -/
def data_region_sectors32 (bs : BootSector) : Nat :=
  sub32 bs.total_sectors_32 (mul32 bs.num_fats bs.fat_size_32)

/-- `cluster_count` as computed at fat32.c:413. -/
def cluster_count_of (bs : BootSector) : Nat :=
  data_region_sectors32 bs / bs.sectors_per_cluster

/-- The three FSInfo magic signatures checked at fat32.c:425. -/
def fsinfo_sigs_valid (fsi : FsInfoSector) : Prop :=
  fsi.lead_sig = 0x41615252 ∧ fsi.struc_sig = 0x61417272 ∧ fsi.trail_sig = 0xAA550000

instance (fsi : FsInfoSector) : Decidable (fsinfo_sigs_valid fsi) := by
  unfold fsinfo_sigs_valid
  infer_instance

/-- Volume state produced by a successful mount. -/
structure MountedVolume where
  bytes_per_cluster : Nat
  first_data_sector : Nat
  data_region_sectors : Nat
  cluster_count : Nat
  current_dir_cluster : Nat
  free_count : Nat
  next_free : Nat
  deriving DecidableEq, Repr

/--
`fat32_mount` (fat32.c:341) from the point where the volume's boot sector
has been located and read (the MBR/partition-scan of lines 359-401 selects
which block holds it; its bytes are the `bs` argument here) and with the
card-initialisation and block reads taken as successful.  Lines 404-433:
validate the boot sector, derive geometry, reject cluster counts below
65525, cache the FSInfo sector and validate its three signatures —
returning `FAT32_ERROR_INVALID_FORMAT` without setting the mounted flag if
they are wrong — and only then set `fat32_mounted`.  A successful result is
the cached volume state (`.ok` here corresponds to `fat32_mounted = true`).
-/
def fat32_mount (card_present : Bool) (bs : BootSector) (fsi : FsInfoSector) :
    Except Err MountedVolume :=
  if !card_present then .error .noCard
  else match is_valid_fat32_boot_sector bs with
    | .error e => .error e
    | .ok () =>
      if cluster_count_of bs < 65525 then .error .invalidFormat
      else if ¬ fsinfo_sigs_valid fsi then .error .invalidFormat
      else .ok {
        bytes_per_cluster := bs.sectors_per_cluster * 512,
        first_data_sector := add32 bs.reserved_sectors (mul32 bs.num_fats bs.fat_size_32),
        data_region_sectors := data_region_sectors32 bs,
        cluster_count := cluster_count_of bs,
        current_dir_cluster := bs.root_cluster,
        free_count := fsi.free_count,
        next_free := fsi.next_free }

/--
Loop body of `get_next_free_cluster` (fat32.c:226): scan the FAT linearly
from `i`, returning the first cluster whose masked entry reads as free.
`fuel` is the number of loop iterations left, `cluster_count + 2 - i` at the
top; running out is the loop exit, `FAT32_ERROR_DISK_FULL`.
-/
def get_next_free_loop (s : Fs) (i : Nat) : Nat → Except Err Nat
  | 0 => .error .diskFull
  | fuel + 1 =>
    match read_cluster_fat_entry s i with
    | .error e => .error e
    | .ok v => if v = FREE then .ok i else get_next_free_loop s (i + 1) fuel

/--
`get_next_free_cluster` (fat32.c:226): start at the next-free hint (or at
cluster 2 if the hint is the unknown sentinel) and scan up to
`cluster_count + 2`; exhausting the range is `FAT32_ERROR_DISK_FULL`.
-/
def get_next_free_cluster (s : Fs) : Except Err Nat :=
  get_next_free_loop s (if s.nextFree ≠ UNKNOWN then s.nextFree else 2)
    (s.clusterCount + 2 - if s.nextFree ≠ UNKNOWN then s.nextFree else 2)

/--
The guarded free-count decrement appearing at fat32.c:300, 1233 and 1548:
`if (fsinfo.free_count != 0xFFFFFFFF) { fsinfo.free_count--; update_fsinfo(); }`
(uint32 decrement; `update_fsinfo` rewrites the FSInfo sector, a no-op in
this model since the cached hints are authoritative).
-/
def dec_free_hint (s : Fs) : Fs :=
  if s.freeCount ≠ UNKNOWN then { s with freeCount := sub32 s.freeCount 1 } else s

/--
`allocate_and_link_cluster` (fat32.c:294): pick a free cluster, point
`last_cluster`'s FAT entry at it, mark it end-of-chain, and decrement the
free-count hint if known.
-/
def allocate_and_link_cluster (s : Fs) (last_cluster : Nat) : Except Err (Nat × Fs) :=
  match get_next_free_cluster s with
  | .error e => .error e
  | .ok nc =>
    match write_cluster_fat_entry s last_cluster nc with
    | .error e => .error e
    | .ok s1 =>
      match write_cluster_fat_entry s1 nc EOC with
      | .error e => .error e
      | .ok s2 => .ok (nc, dec_free_hint s2)

/--
Loop body of `release_cluster_chain` (fat32.c:257): while the current
cluster value is below the end-of-chain range, read its successor, write the
entry free, count it and track the lowest index freed.  `none` means the
fuel ran out before the chain terminated (the C loop would still be
running).
-/
def release_loop (s : Fs) (cluster total lowest : Nat) :
    Nat → Option (Except Err (Fs × Nat × Nat))
  | 0 => if cluster < EOC then none else some (.ok (s, total, lowest))
  | fuel + 1 =>
    if cluster < EOC then
      match read_cluster_fat_entry s cluster with
      | .error e => some (.error e)
      | .ok next =>
        match write_cluster_fat_entry s cluster FREE with
        | .error e => some (.error e)
        | .ok s1 =>
          release_loop s1 next (total + 1) (if cluster < lowest then cluster else lowest) fuel
    else some (.ok (s, total, lowest))

/--
`release_cluster_chain` (fat32.c:246): rejects start clusters below 2,
frees every visited entry, then adds the freed count to the free-count hint
(uint32 addition, with no sentinel guard) and lowers the next-free hint to
the lowest freed cluster when that is smaller.
-/
def release_cluster_chain (s : Fs) (start : Nat) (fuel : Nat) : Option (Except Err Fs) :=
  if start < 2 then some (.error .invalidParameter)
  else match release_loop s start 0 UNKNOWN fuel with
    | none => none
    | some (.error e) => some (.error e)
    | some (.ok (s1, total, lowest)) =>
      some (.ok { s1 with
        freeCount := add32 s1.freeCount total,
        nextFree := if lowest < s1.nextFree then lowest else s1.nextFree })

/-- Walk `n` FAT links from `cluster` with no end-of-chain check. -/
def chain_step (s : Fs) (cluster : Nat) : Nat → Except Err Nat
  | 0 => .ok cluster
  | n + 1 =>
    match read_cluster_fat_entry s cluster with
    | .error e => .error e
    | .ok next => chain_step s next n

/--
`find_last_cluster` (fat32.c:282): starting from `start`, follow the chain
for `count - 1` steps (the C loop `for (i = 1; i < count; i++)`), reading
masked FAT entries blindly.
-/
def find_last_cluster (s : Fs) (start count : Nat) : Except Err Nat :=
  chain_step s start (count - 1)

/--
`seek_to_cluster` (fat32.c:320): follow `off` FAT links from `cluster`,
failing with `FAT32_ERROR_INVALID_POSITION` if an end-of-chain value is hit.
-/
def seek_to_cluster (s : Fs) (cluster : Nat) : Nat → Except Err Nat
  | 0 => .ok cluster
  | off + 1 =>
    match read_cluster_fat_entry s cluster with
    | .error e => .error e
    | .ok next => if EOC ≤ next then .error .invalidPosition else seek_to_cluster s next off

/--
Copy loop of `fat32_read` (fat32.c:1434): transfer up to a sector's worth of
bytes per iteration (the `memcpy` into the caller's buffer is not modelled;
the byte count and position bookkeeping are), crossing to the next cluster
via a FAT lookup whenever the position reaches a cluster boundary with data
still wanted, and stopping early (with success) at an end-of-chain entry.
Returns bytes transferred and the updated handle; `none` = fuel exhausted
while the C loop would still be running.
-/
def fat32_read_loop (s : Fs) (size : Nat) (total : Nat) (f : File) :
    Nat → Option (Except Err (Nat × File))
  | 0 => if total < size then none else some (.ok (total, f))
  | fuel + 1 =>
    if total < size then
      let byte_in_sector := f.position % s.bpc % 512
      let btc := min (512 - byte_in_sector) (size - total)
      let total2 := total + btc
      let f2 := { f with position := f.position + btc }
      if f2.position % s.bpc = 0 ∧ total2 < size then
        match read_cluster_fat_entry s f2.current_cluster with
        | .error e => some (.error e)
        | .ok next =>
          if EOC ≤ next then some (.ok (total2, f2))
          else fat32_read_loop s size total2 { f2 with current_cluster := next } fuel
      else fat32_read_loop s size total2 f2 fuel
    else some (.ok (total, f))

/--
`fat32_read` (fat32.c:1392): parameter checks (`buffer` is taken non-null;
a null handle or buffer is outside this model), directory rejection, the
end-of-file early return of zero bytes, clipping the request to the bytes
remaining before end-of-file, locating the cluster of the current position
by walking from the start cluster, then the sector copy loop.  The volume
is taken as mounted (`fat32_is_ready` true), matching the claims' scope.
-/
def fat32_read (s : Fs) (f : File) (size : Nat) (fuel : Nat) :
    Option (Except Err (Nat × File)) :=
  if ¬ f.is_open then some (.error .invalidParameter)
  else if f.attributes &&& 0x10 ≠ 0 then some (.error .notAFile)
  else if f.file_size ≤ f.position then some (.ok (0, f))
  else
    let size2 := if f.file_size - f.position < size then f.file_size - f.position else size
    match seek_to_cluster s f.start_cluster (f.position / s.bpc) with
    | .error e => some (.error e)
    | .ok cl => fat32_read_loop s size2 0 { f with current_cluster := cl } fuel

/--
First walk of `fat32_write` (fat32.c:1500): follow `position / bytes_per_cluster`
links from the start cluster, allocating and linking a fresh cluster
whenever an end-of-chain entry is met along the way.
-/
def write_walk_loop (s : Fs) (cluster : Nat) : Nat → Except Err (Nat × Fs)
  | 0 => .ok (cluster, s)
  | n + 1 =>
    match read_cluster_fat_entry s cluster with
    | .error e => .error e
    | .ok next =>
      if EOC ≤ next then
        match allocate_and_link_cluster s cluster with
        | .error e => .error e
        | .ok (nc, s1) => write_walk_loop s1 nc n
      else write_walk_loop s next n

/--
Allocation loop of `fat32_write` (fat32.c:1534): run `needed - current`
times with `i` counting up from `current`; each iteration either links a
fresh cluster after `last` (`current > 0 || i > 0`, always true here since
`current ≥ 1`), or — in the unreachable else branch — allocates the very
first cluster of an empty file and stores it in the handle.
-/
def write_alloc_steps (s : Fs) (f : File) (last : Nat) (current0 i : Nat) :
    Nat → Except Err (Fs × File × Nat)
  | 0 => .ok (s, f, last)
  | n + 1 =>
    if 0 < current0 ∨ 0 < i then
      match allocate_and_link_cluster s last with
      | .error e => .error e
      | .ok (nc, s1) => write_alloc_steps s1 f nc current0 (i + 1) n
    else
      match get_next_free_cluster s with
      | .error e => .error e
      | .ok nc =>
        match write_cluster_fat_entry s nc EOC with
        | .error e => .error e
        | .ok s1 =>
          write_alloc_steps (dec_free_hint s1) { f with start_cluster := nc } nc current0 (i + 1) n

/--
Copy loop of `fat32_write` (fat32.c:1566): like the read loop (sector
content writes are not modelled; byte counts and position are), but a FAT
read failure or an end-of-chain entry at a crossing aborts with
`FAT32_ERROR_DISK_FULL`.  Returns (bytes written, position, current
cluster).  `pos` is the C's `pos_in_file`, a 32-bit `size_t`
(fat32.c:1565): the increment at fat32.c:1586 wraps modulo `2^32`.
-/
def write_copy_loop (s : Fs) (size total pos cluster : Nat) :
    Nat → Option (Except Err (Nat × Nat × Nat))
  | 0 => if total < size then none else some (.ok (total, pos, cluster))
  | fuel + 1 =>
    if total < size then
      let byte_in_sector := pos % s.bpc % 512
      let btw := min (512 - byte_in_sector) (size - total)
      let total2 := total + btw
      let pos2 := (pos + btw) % 2 ^ 32
      if pos2 % s.bpc = 0 ∧ total2 < size then
        match read_cluster_fat_entry s cluster with
        | .error _ => some (.error .diskFull)
        | .ok next =>
          if EOC ≤ next then some (.error .diskFull)
          else write_copy_loop s size total2 pos2 next fuel
      else write_copy_loop s size total2 pos2 cluster fuel
    else some (.ok (total, pos, cluster))

/-- Apply `write_cluster_fat_entry` discarding a failure, as the ignored
call at fat32.c:1633 does. -/
def try_write_fat (s : Fs) (cluster value : Nat) : Fs :=
  match write_cluster_fat_entry s cluster value with
  | .ok s1 => s1
  | .error _ => s

/-- Apply `release_cluster_chain` discarding a failure, as the ignored
calls at fat32.c:1635 and 1642 do. -/
def try_release (s : Fs) (start fuel : Nat) : Fs :=
  match release_cluster_chain s start fuel with
  | some (.ok s1) => s1
  | _ => s

/--
Tail of `fat32_write` (fat32.c:1602): commit the new position, extend the
logical size if the position passed it, then the shrink-truncation branch
(fat32.c:1614, reachable only if the size decreased — which the lines just
above rule out, making it dead code), and the directory-entry size
write-back (sector content, not modelled; infallible transport).
-/
def write_tail (s : Fs) (f : File) (old_file_size total pos fuel : Nat) :
    Option (Except Err (Fs × Nat × File)) :=
  let f1 := { f with position := pos }
  let f2 := if f1.file_size < f1.position then { f1 with file_size := f1.position } else f1
  if f2.file_size < old_file_size then
    let needed :=
      if f2.file_size = 0 then 0 else (f2.file_size + s.bpc - 1) % 2 ^ 32 / s.bpc
    let current :=
      if old_file_size = 0 then 0 else (old_file_size + s.bpc - 1) % 2 ^ 32 / s.bpc
    if needed < current ∧ 2 ≤ f2.start_cluster then
      if 0 < needed then
        match seek_to_cluster s f2.start_cluster (needed - 1) with
        | .error _ => some (.ok (s, total, f2))
        | .ok last_keep =>
          match read_cluster_fat_entry s last_keep with
          | .error _ => some (.ok (s, total, f2))
          | .ok first_free =>
            let s1 := try_write_fat s last_keep EOC
            some (.ok (try_release s1 first_free fuel, total, f2))
      else
        some (.ok (try_release s f2.start_cluster fuel, total,
          { f2 with start_cluster := 0 }))
    else some (.ok (s, total, f2))
  else some (.ok (s, total, f2))

/--
`fat32_write` (fat32.c:1475): parameter and directory checks, the
position-walk with on-demand allocation, cluster-need computation
(`current` is 1 for an empty file because `link_entry` pre-allocates a
start cluster), locating the last cluster, extending the chain, seeking to
the write position, the sector copy loop and the tail (size update, dead
shrink branch, directory write-back).  Returns the new volume state, the
byte count stored in `*bytes_written`, and the updated handle.
`end_pos` is a `uint32_t` (fat32.c:1521), so `position + size` and the
two cluster-count ceilings computed from it and from `file_size` wrap
modulo `2^32` exactly as the C's 32-bit arithmetic does.
-/
def fat32_write (s : Fs) (f : File) (size : Nat) (fuel : Nat) :
    Option (Except Err (Fs × Nat × File)) :=
  if ¬ f.is_open then some (.error .invalidParameter)
  else if f.attributes &&& 0x10 ≠ 0 then some (.error .notAFile)
  else
    let old := f.file_size
    match write_walk_loop s f.start_cluster (f.position / s.bpc) with
    | .error e => some (.error e)
    | .ok (cl1, s1) =>
      let f1 := { f with current_cluster := cl1 }
      let end_pos := (f1.position + size) % 2 ^ 32
      let needed := (end_pos + s1.bpc - 1) % 2 ^ 32 / s1.bpc
      let current :=
        if f1.file_size = 0 then 1 else (f1.file_size + s1.bpc - 1) % 2 ^ 32 / s1.bpc
      match (if 0 < current then find_last_cluster s1 f1.start_cluster current
        else .ok f1.start_cluster) with
      | .error e => some (.error e)
      | .ok last0 =>
        match write_alloc_steps s1 f1 last0 current current (needed - current) with
        | .error e => some (.error e)
        | .ok (s2, f2, _) =>
          match seek_to_cluster s2 f2.start_cluster (f2.position / s2.bpc) with
          | .error e => some (.error e)
          | .ok cl2 =>
            match write_copy_loop s2 size 0 f2.position cl2 fuel with
            | none => none
            | some (.error e) => some (.error e)
            | some (.ok (total, pos, clEnd)) =>
              write_tail s2 { f2 with current_cluster := clEnd } old total pos fuel

/--
`fat32_seek` (fat32.c:1663): a null or closed handle is rejected; otherwise
the logical position is set unconditionally.
-/
def fat32_seek (f : File) (position : Nat) : Except Err File :=
  if ¬ f.is_open then .error .invalidParameter
  else .ok { f with position := position }

/--
Start-cluster allocation for a freshly linked file, `link_entry`
lines 1227-1238: when the entry carries no start cluster yet (always the
case for `fat32_create`'s `new_entry`, which zeroes the entry), claim the
next free cluster, mark it end-of-chain and decrement the free-count hint
if known.
-/
def create_alloc (s : Fs) : Except Err (Nat × Fs) :=
  match get_next_free_cluster s with
  | .error e => .error e
  | .ok nc =>
    match write_cluster_fat_entry s nc EOC with
    | .error e => .error e
    | .ok s1 => .ok (nc, dec_free_hint s1)

/--
`fat32_create` = `new_entry` (fat32.c:1267) + `link_entry` (fat32.c:1057),
restricted to its effect on the created file and the FAT: the handle is
zeroed, the entry is linked with attribute `FAT32_ATTR_ARCHIVE` and a
freshly allocated start cluster (fat32.c:1227-1238), and the handle fields
are populated from the entry.  The directory-slot search and the LFN/8.3
record writes (fat32.c:1115-1225, 1240-1260) touch only directory sector
content plus — when the parent directory must grow — directory clusters,
not the created file's chain, and are outside this model.  The cached
directory-entry location is not tracked (0).
-/
def fat32_create (s : Fs) : Except Err (Fs × File) :=
  match create_alloc s with
  | .error e => .error e
  | .ok (nc, s1) =>
    .ok (s1, { zeroFile with
      is_open := true, attributes := 0x20, start_cluster := nc, current_cluster := nc })

/-- C `toupper` in the default locale, on a byte: ASCII `a`-`z` map up. -/
def toUpperB (c : Nat) : Nat := if 97 ≤ c ∧ c ≤ 122 then c - 32 else c

/-- C `tolower` in the default locale, on a byte: ASCII `A`-`Z` map down. -/
def toLowerB (c : Nat) : Nat := if 65 ≤ c ∧ c ≤ 90 then c + 32 else c

/-- Index of the last `'.'` (byte 46) in a byte string, as `strrchr` finds it. -/
def lastDotIdx : List Nat → Option Nat
  | [] => none
  | c :: rest =>
    match lastDotIdx rest with
    | some i => some (i + 1)
    | none => if c = 46 then some 0 else none

/-- Index of the first `'.'` in a byte string, as `strchr` finds it. -/
def firstDotIdx : List Nat → Option Nat
  | [] => none
  | c :: rest =>
    if c = 46 then some 0
    else match firstDotIdx rest with
      | some i => some (i + 1)
      | none => none

/-- Pad a byte string with spaces on the right to length `n` (`memset ' '`
followed by a shorter `memcpy`). -/
def padTo (n : Nat) (l : List Nat) : List Nat := l ++ List.replicate (n - l.length) 32

/--
`filename_to_shortname` (fat32.c:603): space-fill 11 bytes, uppercase-copy
up to 8 name characters (the part before the last dot, or the whole string
if no dot), and up to 3 extension characters after the last dot when the
extension is non-empty.
-/
def filename_to_shortname (f : List Nat) : List Nat :=
  let name_len := match lastDotIdx f with
    | some i => i
    | none => f.length
  let base := ((f.take name_len).take 8).map toUpperB
  let ext := match lastDotIdx f with
    | some i => ((f.drop (i + 1)).take 3).map toUpperB
    | none => []
  padTo 8 base ++ padTo 3 ext

/--
`shortname_to_filename` (fat32.c:627): lowercase the name bytes up to the
first space (at most 8), then — if any of the three extension bytes is not
a space — a dot and the lowercased non-space extension bytes.
-/
def shortname_to_filename (sn : List Nat) : List Nat :=
  let name := ((sn.take 8).takeWhile (fun c => c ≠ 32)).map toLowerB
  let ext := (((sn.drop 8).take 3).filter (fun c => c ≠ 32)).map toLowerB
  name ++ (if ext.isEmpty then [] else 46 :: ext)

/-- The forbidden bytes of `valid_shortname` (fat32.c:658):
`" * + , . / : ; < = > ? [ \ ] |`. -/
def forbiddenB (c : Nat) : Bool :=
  decide (c = 34 ∨ c = 42 ∨ c = 43 ∨ c = 44 ∨ c = 46 ∨ c = 47 ∨ c = 58 ∨ c = 59 ∨
    c = 60 ∨ c = 61 ∨ c = 62 ∨ c = 63 ∨ c = 91 ∨ c = 92 ∨ c = 93 ∨ c = 124)

/-- A byte `valid_shortname` accepts in a name or extension: above 0x20 and
not forbidden. -/
def okChar (c : Nat) : Bool := 32 < c && ! forbiddenB c

/--
`valid_shortname` (fat32.c:655): total length 1-12, at most one dot and not
in first position, name part 1-8 bytes, extension part 0-3 bytes, all bytes
above 0x20 and outside the forbidden set.
-/
def valid_shortname (f : List Nat) : Bool :=
  if f.length < 1 ∨ 12 < f.length then false
  else
    match firstDotIdx f with
    | none => f.length ≤ 8 && f.all okChar
    | some i =>
      if lastDotIdx f ≠ some i then false
      else if i = 0 then false
      else
        let name := f.take i
        let ext := f.drop (i + 1)
        decide (1 ≤ name.length) && decide (name.length ≤ 8) && decide (ext.length ≤ 3) &&
          name.all okChar && ext.all okChar

/-- The character set kept verbatim by `unique_shortname` (fat32.c:818):
`A`-`Z`, `0`-`9` and `$ % ' - _ @ ~ ` ! ( ) { } ^ # &`. -/
def sn_allowed (c : Nat) : Bool :=
  (65 ≤ c && c ≤ 90) || (48 ≤ c && c ≤ 57) ||
    [36, 37, 39, 45, 95, 64, 126, 96, 33, 40, 41, 123, 125, 94, 35, 38].contains c

/--
`shortname_exists` (fat32.c:756): scan the directory's entries (modelled as
the list of filenames `fat32_dir_read` yields) and compare each one's
`filename_to_shortname` image with the candidate.
-/
def shortname_exists (dir : List (List Nat)) (candidate : List Nat) : Bool :=
  dir.any (fun fn => filename_to_shortname fn == candidate)

/-- Decimal ASCII digits of `n` (at most 7 digits, enough for n ≤ 9999999),
as `snprintf "%d"` renders it. -/
def decDigitsAux : Nat → Nat → List Nat
  | 0, _ => []
  | fuel + 1, n => if n < 10 then [48 + n] else decDigitsAux fuel (n / 10) ++ [48 + n % 10]

def decDigits (n : Nat) : List Nat := decDigitsAux 7 n

/--
Numeric-tail loop of `unique_shortname` (fat32.c:869): candidate
`base-prefix ~N ext` for N counting up, keeping the name field at 8 bytes,
until no collision; the fuel is the remaining trials out of the C loop's
`n = 1 .. 999999`, and running out is `FAT32_ERROR_DISK_FULL`.
-/
def tail_loop (dir : List (List Nat)) (base ext : List Nat) (n : Nat) :
    Nat → Except Err (List Nat)
  | 0 => .error .diskFull
  | fuel + 1 =>
    let tail := 126 :: decDigits n
    let base_len := min (8 - tail.length) base.length
    let candidate := padTo 8 (base.take base_len ++ tail) ++ padTo 3 ext
    if shortname_exists dir candidate then tail_loop dir base ext (n + 1) fuel
    else .ok candidate

/--
`unique_shortname` (fat32.c:773): uppercase, strip spaces, strip leading
dots, split at the last dot (a leading dot does not split), keep up to 8
base and 3 extension characters replacing disallowed ones with `_` (setting
`lossy`), and append a `~N` numeric tail when the result is lossy, the
(unreachable) length checks fire, or the candidate collides with an
existing entry of the directory.
-/
def unique_shortname (dir : List (List Nat)) (longname : List Nat) : Except Err (List Nat) :=
  let upper := longname.map toUpperB
  let temp := upper.filter (fun c => c ≠ 32)
  let p := temp.dropWhile (fun c => c = 46)
  let dIdx : Option Nat := match lastDotIdx p with
    | some 0 => none
    | some i => some i
    | none => none
  let nameSrc := match dIdx with
    | some i => (p.take i).take 8
    | none => p.take 8
  let base := nameSrc.map (fun c => if sn_allowed c then c else 95)
  let extSrc := match dIdx with
    | some i => (p.drop (i + 1)).take 3
    | none => []
  let ext := extSrc.map (fun c => if sn_allowed c then c else 95)
  let lossy := nameSrc.any (fun c => ! sn_allowed c) || extSrc.any (fun c => ! sn_allowed c)
  let candidate := padTo 8 base ++ padTo 3 ext
  if lossy || decide (8 < base.length) || decide (3 < ext.length) ||
      shortname_exists dir candidate then
    tail_loop dir base ext 1 999999
  else .ok candidate

end Fat32

open Fat32 in
/--
Counterexample for C1: a boot sector passing every field validation with
cluster count 65600 ≥ 65525, paired with an FSInfo sector whose three magic
signatures are all wrong.  The claim says mount still succeeds with the
hints set to the unknown sentinel; the code instead fails the mount with
`FAT32_ERROR_INVALID_FORMAT` (fat32.c:429).
-/
theorem claim_C1_counterexample :
    is_valid_fat32_boot_sector
      ⟨0xEB, 512, 1, 32, 2, 0, 67600, 1000, 2, 1⟩ = .ok () ∧
    65525 ≤ cluster_count_of ⟨0xEB, 512, 1, 32, 2, 0, 67600, 1000, 2, 1⟩ ∧
    ¬ fsinfo_sigs_valid ⟨0, 0, 123, 456, 0⟩ ∧
    fat32_mount true ⟨0xEB, 512, 1, 32, 2, 0, 67600, 1000, 2, 1⟩ ⟨0, 0, 123, 456, 0⟩ =
      .error .invalidFormat := by
  refine ⟨rfl, by decide, by decide, rfl⟩

open Fat32 in
/--
C1 (amended).  For every mount attempt where the card is present, the boot
sector passes all FAT32 validation checks and the cluster count is at least
65525, but the FSInfo sector's three magic signatures are invalid, `mount()`
fails with `FAT32_ERROR_INVALID_FORMAT` and does not set the mounted flag;
the free-count and next-free hints are not installed at all (in particular
they are not set to the unknown sentinel).
-/
theorem claim_C1_amended (bs : BootSector) (fsi : FsInfoSector)
    (hv : is_valid_fat32_boot_sector bs = .ok ())
    (hcc : 65525 ≤ cluster_count_of bs)
    (hsig : ¬ fsinfo_sigs_valid fsi) :
    fat32_mount true bs fsi = .error .invalidFormat := by
  unfold fat32_mount
  rw [hv]
  simp [Nat.not_lt.mpr hcc, hsig]

open Fat32 in
/--
Witness for C1 (amended) at the concrete counterexample volume.
-/
theorem claim_C1_witness :
    Fat32.fat32_mount true ⟨0xE9, 512, 2, 32, 2, 0, 163052, 1000, 2, 1⟩ ⟨1, 2, 50, 60, 3⟩ =
      .error .invalidFormat :=
  claim_C1_amended ⟨0xE9, 512, 2, 32, 2, 0, 163052, 1000, 2, 1⟩ ⟨1, 2, 50, 60, 3⟩
    rfl (by decide) (by decide)

open Fat32 in
/--
C10.  `fat32_close` returns success on every input: a null handle or an
already-closed handle is a harmless no-op, and an open handle has every
field zeroed (`is_open` false, position, size, clusters and cached
directory-entry location 0); the disk is never touched and no error is ever
reported.
-/
theorem claim_C10_close_total {α : Type} (d : α) (f : File) (fo : Option File) :
    (∃ p, fat32_close d fo = .ok p ∧ p.1 = d) ∧
    fat32_close d none = .ok (d, none) ∧
    (f.is_open = false → fat32_close d (some f) = .ok (d, some f)) ∧
    (f.is_open = true → fat32_close d (some f) = .ok (d, some zeroFile)) := by
  refine ⟨?_, rfl, ?_, ?_⟩
  · cases fo with
    | none => exact ⟨(d, none), rfl, rfl⟩
    | some g =>
      by_cases h : g.is_open
      · exact ⟨(d, some zeroFile), by simp [fat32_close, h], rfl⟩
      · exact ⟨(d, some g), by simp [fat32_close, h], rfl⟩
  · intro h
    simp [fat32_close, h]
  · intro h
    simp [fat32_close, h]

/--
Witness for C10: closing an open handle zeroes it; closing a closed handle
and a null handle are no-ops returning success.
-/
theorem claim_C10_witness :
    Fat32.fat32_close (0 : Nat) (some { Fat32.zeroFile with is_open := true, position := 7 }) =
      .ok (0, some Fat32.zeroFile) ∧
    Fat32.fat32_close (0 : Nat) (some { Fat32.zeroFile with position := 7 }) =
      .ok (0, some { Fat32.zeroFile with position := 7 }) := by
  constructor
  · exact (claim_C10_close_total 0 { Fat32.zeroFile with is_open := true, position := 7 }
      none).2.2.2 rfl
  · exact (claim_C10_close_total 0 { Fat32.zeroFile with position := 7 } none).2.2.1 rfl

open Fat32 in
/--
C9.  For every cluster index ≥ 2 and every stored FAT entry value, reading
the cluster's FAT entry returns the stored value masked to its low 28 bits,
and writing a value replaces only the low 28 bits of the stored entry while
preserving its top 4 bits and every other cluster's entry; cluster indices
below 2 are rejected with `FAT32_ERROR_INVALID_PARAMETER` by both
operations.
-/
theorem claim_C9_fat_entry_mask (s : Fs) (c v : Nat) :
    (2 ≤ c →
      read_cluster_fat_entry s c = .ok (s.fat c % 2 ^ 28) ∧
      ∃ s2, write_cluster_fat_entry s c v = .ok s2 ∧
        s2.fat c % 2 ^ 28 = v % 2 ^ 28 ∧
        s2.fat c &&& 0xF0000000 = s.fat c &&& 0xF0000000 ∧
        (∀ x, x ≠ c → s2.fat x = s.fat x)) ∧
    (c < 2 →
      read_cluster_fat_entry s c = .error .invalidParameter ∧
      write_cluster_fat_entry s c v = .error .invalidParameter) := by
  constructor
  · intro hc
    have hnot : ¬ c < 2 := Nat.not_lt.mpr hc
    refine ⟨?_, ?_⟩
    · simp [read_cluster_fat_entry, hnot, and_low_mask]
    · refine ⟨{ s with
        fat := fun x =>
          if x = c then (s.fat c &&& 0xF0000000) ||| (v &&& 0x0FFFFFFF)
          else s.fat x }, ?_, ?_, ?_, ?_⟩
      · simp [write_cluster_fat_entry, hnot]
      · simp only [if_pos rfl, ← and_low_mask]
        exact entry_low_bits (s.fat c) v
      · simp only [if_pos rfl]
        exact entry_high_bits (s.fat c) v
      · intro x hx
        simp [hx]
  · intro hc
    constructor
    · simp [read_cluster_fat_entry, hc]
    · simp [write_cluster_fat_entry, hc]

/--
Witness for C9 at a concrete state: with entry `0x12345678` stored for
cluster 5, a read returns `0x02345678` and a write of `0xABC` yields
stored entry `0x10000ABC`.
-/
theorem claim_C9_witness :
    Fat32.read_cluster_fat_entry ⟨fun _ => 0x12345678, 0, 0, 0, 0⟩ 5 = .ok 0x02345678 ∧
    Fat32.read_cluster_fat_entry ⟨fun _ => 0x12345678, 0, 0, 0, 0⟩ 1 = .error .invalidParameter := by
  have h := claim_C9_fat_entry_mask ⟨fun _ => 0x12345678, 0, 0, 0, 0⟩ 5 0xABC
  have h1 := (h.1 (by norm_num)).1
  have h2 := (claim_C9_fat_entry_mask ⟨fun _ => 0x12345678, 0, 0, 0, 0⟩ 1 0xABC).2 (by norm_num)
  refine ⟨?_, h2.1⟩
  rw [h1]
  norm_num

open Fat32 in
/--
Counterexample for C7: a 64 MiB FAT32-formatted image (cluster count
129020 ≥ 65525, all boot-sector field validations passing) whose FSInfo
signatures are invalid does not mount — `fat32_mount` returns
`FAT32_ERROR_INVALID_FORMAT` even though the cluster count is ≥ 65525, so
the cluster-count test is not the only source of invalid-format rejection
and such an image does not "mount successfully".
-/
theorem claim_C7_counterexample :
    is_valid_fat32_boot_sector
      ⟨0xEB, 512, 1, 32, 2, 0, 131072, 1026, 2, 1⟩ = .ok () ∧
    65525 ≤ cluster_count_of ⟨0xEB, 512, 1, 32, 2, 0, 131072, 1026, 2, 1⟩ ∧
    fat32_mount true ⟨0xEB, 512, 1, 32, 2, 0, 131072, 1026, 2, 1⟩ ⟨7, 8, 9, 10, 11⟩ =
      .error .invalidFormat :=
  ⟨rfl, by decide, rfl⟩

open Fat32 in
/--
C7 (amended).  For every boot sector that passes the field validations and
every FSInfo sector whose signatures are valid, mount computes the cluster
count from the volume geometry (data-region sector count divided by
sectors-per-cluster) and rejects the volume with invalid-format exactly
when that cluster count is below 65525; with cluster count ≥ 65525 the
mount succeeds and caches that cluster count.  A FAT16-formatted image
(nonzero 16-bit FAT size or zero 32-bit FAT size) always fails with
invalid-format, at the field validation itself.
-/
theorem claim_C7_amended (bs : BootSector) (fsi : FsInfoSector)
    (hv : is_valid_fat32_boot_sector bs = .ok ())
    (hsig : fsinfo_sigs_valid fsi) :
    (fat32_mount true bs fsi = .error .invalidFormat ↔ cluster_count_of bs < 65525) ∧
    ((∃ m, fat32_mount true bs fsi = .ok m ∧
        m.cluster_count = data_region_sectors32 bs / bs.sectors_per_cluster) ↔
      65525 ≤ cluster_count_of bs) ∧
    (∀ bs2 fsi2, bs2.fat_size_16 ≠ 0 →
      fat32_mount true bs2 fsi2 = .error .invalidFormat) := by
  refine ⟨?_, ?_, ?_⟩
  · constructor
    · intro h
      by_contra hcc
      rw [Nat.not_lt] at hcc
      unfold fat32_mount at h
      rw [hv] at h
      simp [Nat.not_lt.mpr hcc, hsig] at h
    · intro hcc
      unfold fat32_mount
      rw [hv]
      simp [hcc]
  · constructor
    · rintro ⟨m, hm, -⟩
      by_contra hcc
      rw [Nat.not_le] at hcc
      unfold fat32_mount at hm
      rw [hv] at hm
      simp [hcc] at hm
    · intro hcc
      refine ⟨{
        bytes_per_cluster := bs.sectors_per_cluster * 512,
        first_data_sector := add32 bs.reserved_sectors (mul32 bs.num_fats bs.fat_size_32),
        data_region_sectors := data_region_sectors32 bs,
        cluster_count := cluster_count_of bs,
        current_dir_cluster := bs.root_cluster,
        free_count := fsi.free_count,
        next_free := fsi.next_free }, ?_, rfl⟩
      unfold fat32_mount
      rw [hv]
      simp [Nat.not_lt.mpr hcc, hsig]
  · intro bs2 fsi2 h16
    unfold fat32_mount is_valid_fat32_boot_sector
    by_cases hb : bs2.bytes_per_sector = 512 <;>
      by_cases hs : bs2.sectors_per_cluster = 0 ∨ 128 < bs2.sectors_per_cluster ∨
        (bs2.sectors_per_cluster &&& (bs2.sectors_per_cluster - 1)) ≠ 0 <;>
      by_cases hf : bs2.num_fats = 0 ∨ 2 < bs2.num_fats <;>
      by_cases hr : bs2.reserved_sectors = 0 <;>
      simp [hb, hs, hf, hr, h16]

open Fat32 in
/--
Witness for C7 (amended): a 64 MiB FAT32 image with a valid FSInfo sector
mounts with cluster count 129020, and an equivalent FAT16-formatted image
(16-bit FAT size 100, 32-bit FAT size 0) fails with invalid-format.
-/
theorem claim_C7_witness :
    (∃ m, fat32_mount true ⟨0xEB, 512, 1, 32, 2, 0, 131072, 1026, 2, 1⟩
        ⟨0x41615252, 0x61417272, 5000, 3, 0xAA550000⟩ = .ok m ∧
      m.cluster_count = data_region_sectors32 ⟨0xEB, 512, 1, 32, 2, 0, 131072, 1026, 2, 1⟩ / 1) ∧
    fat32_mount true ⟨0xEB, 512, 1, 32, 2, 100, 131072, 0, 2, 1⟩
      ⟨0x41615252, 0x61417272, 5000, 3, 0xAA550000⟩ = .error .invalidFormat := by
  have h := claim_C7_amended ⟨0xEB, 512, 1, 32, 2, 0, 131072, 1026, 2, 1⟩
    ⟨0x41615252, 0x61417272, 5000, 3, 0xAA550000⟩ rfl (by decide)
  exact ⟨h.2.1.mpr (by decide),
    h.2.2 ⟨0xEB, 512, 1, 32, 2, 100, 131072, 0, 2, 1⟩
      ⟨0x41615252, 0x61417272, 5000, 3, 0xAA550000⟩ (by decide)⟩

open Fat32 in
/--
C5 (code bug exhibited).  Releasing the one-cluster terminated chain at
cluster 2 while the free-count hint is the unknown sentinel 0xFFFFFFFF:
the entry is freed and next-free is lowered to 2 as the claim says, but
`release_cluster_chain` adds the freed count to the sentinel without the
`!= 0xFFFFFFFF` guard used by every allocation path, wrapping the hint to
the numeric value 0 instead of leaving it unknown (fat32.c:271).
-/
theorem claim_C5_sentinel_wrap :
    (Fs.fat ⟨fun c => if c = 2 then 0x0FFFFFF8 else 0, UNKNOWN, UNKNOWN, 70000, 1⟩ 2 =
      0x0FFFFFF8) ∧
    Option.map (Except.map Fs.freeCount)
      (release_cluster_chain
        ⟨fun c => if c = 2 then 0x0FFFFFF8 else 0, UNKNOWN, UNKNOWN, 70000, 1⟩ 2 10) =
      some (.ok 0) ∧
    Option.map (Except.map Fs.nextFree)
      (release_cluster_chain
        ⟨fun c => if c = 2 then 0x0FFFFFF8 else 0, UNKNOWN, UNKNOWN, 70000, 1⟩ 2 10) =
      some (.ok 2) ∧
    Option.map (Except.map (fun s1 => s1.fat 2))
      (release_cluster_chain
        ⟨fun c => if c = 2 then 0x0FFFFFF8 else 0, UNKNOWN, UNKNOWN, 70000, 1⟩ 2 10) =
      some (.ok FREE) ∧
    (0 : Nat) ≠ UNKNOWN :=
  ⟨rfl, rfl, rfl, rfl, by decide⟩

open Fat32 in
/--
C3 (code bug exhibited).  Creating `"LONGFILENAME.TXT"` in a directory with
no colliding entry: the sanitized base `LONGFILENAME` is truncated to the 8
characters `LONGFILE`, yet `unique_shortname` emits `LONGFILE.TXT`
(11-byte field `LONGFILETXT`) with no `~1` tail: its truncation test
`name_len > 8` (fat32.c:860) can never fire because the copy loop
(fat32.c:815) already stops at `name_len < 8`.  The claim (and the spec
scenario) expect `LONGFI~1.TXT`.
-/
theorem claim_C3_missing_tail :
    unique_shortname [] [76, 79, 78, 71, 70, 73, 76, 69, 78, 65, 77, 69, 46, 84, 88, 84] =
      .ok [76, 79, 78, 71, 70, 73, 76, 69, 84, 88, 84] ∧
    ([76, 79, 78, 71, 70, 73, 76, 69, 84, 88, 84] : List Nat) ≠
      [76, 79, 78, 71, 70, 73, 126, 49, 84, 88, 84] :=
  ⟨rfl, by decide⟩

open Fat32 in
/--
Counterexample for C8: `"A."` satisfies `valid_shortname` (one dot, not
leading, empty extension), but converting to a short name and back yields
`"a"` — the trailing dot is lost, so the two conversions are not inverses
even up to case.
-/
theorem claim_C8_counterexample :
    valid_shortname [65, 46] = true ∧
    shortname_to_filename (filename_to_shortname [65, 46]) = [97] ∧
    ([97] : List Nat).map toLowerB ≠ ([65, 46] : List Nat).map toLowerB :=
  ⟨rfl, rfl, by decide⟩

namespace Fat32

theorem toLowerB_toUpperB (c : Nat) : toLowerB (toUpperB c) = toLowerB c := by
  unfold toUpperB toLowerB
  split_ifs <;> omega

theorem toLowerB_idem (c : Nat) : toLowerB (toLowerB c) = toLowerB c := by
  unfold toLowerB
  split_ifs <;> omega

theorem okChar_spec {c : Nat} (h : okChar c = true) : 32 < c ∧ c ≠ 46 := by
  unfold okChar forbiddenB at h
  simp only [Bool.and_eq_true, decide_eq_true_eq, Bool.not_eq_true',
    decide_eq_false_iff_not] at h
  obtain ⟨h1, h2⟩ := h
  push_neg at h2
  exact ⟨h1, h2.2.2.2.2.1⟩

theorem toUpperB_ne_32 {c : Nat} (h : 32 < c) : toUpperB c ≠ 32 := by
  unfold toUpperB
  split_ifs <;> omega

theorem lastDotIdx_nil : lastDotIdx [] = none := rfl

theorem lastDotIdx_cons (c : Nat) (rest : List Nat) :
    lastDotIdx (c :: rest) =
      match lastDotIdx rest with
      | some i => some (i + 1)
      | none => if c = 46 then some 0 else none := rfl

theorem firstDotIdx_cons (c : Nat) (rest : List Nat) :
    firstDotIdx (c :: rest) =
      if c = 46 then some 0
      else match firstDotIdx rest with
        | some i => some (i + 1)
        | none => none := rfl

theorem lastDotIdx_eq_none {l : List Nat} (h : 46 ∉ l) : lastDotIdx l = none := by
  induction l with
  | nil => rfl
  | cons c rest ih =>
    simp only [List.mem_cons, not_or] at h
    rw [lastDotIdx_cons, ih h.2]
    exact if_neg (fun hc => h.1 hc.symm)

theorem lastDotIdx_append_cons (n e : List Nat) (he : 46 ∉ e) :
    lastDotIdx (n ++ 46 :: e) = some n.length := by
  induction n with
  | nil =>
    rw [List.nil_append, lastDotIdx_cons, lastDotIdx_eq_none he]
    simp
  | cons c rest ih =>
    rw [List.cons_append, lastDotIdx_cons, ih]
    simp

theorem firstDotIdx_eq_none {l : List Nat} (h : firstDotIdx l = none) : 46 ∉ l := by
  induction l with
  | nil => simp
  | cons c rest ih =>
    rw [firstDotIdx_cons] at h
    by_cases hc : c = 46
    · simp [hc] at h
    · rw [if_neg hc] at h
      match hr : firstDotIdx rest with
      | some j => rw [hr] at h; exact absurd h (by simp)
      | none =>
        simp only [List.mem_cons, not_or]
        exact ⟨fun hh => hc hh.symm, ih hr⟩

theorem firstDotIdx_decomp {l : List Nat} {i : Nat} (h : firstDotIdx l = some i) :
    ∃ n e, l = n ++ 46 :: e ∧ n.length = i := by
  induction l generalizing i with
  | nil => simp [firstDotIdx] at h
  | cons c rest ih =>
    rw [firstDotIdx_cons] at h
    by_cases hc : c = 46
    · rw [if_pos hc] at h
      simp only [Option.some.injEq] at h
      exact ⟨[], rest, by simp [hc], by simp [← h]⟩
    · rw [if_neg hc] at h
      match hr : firstDotIdx rest with
      | none => rw [hr] at h; exact absurd h (by simp)
      | some j =>
        rw [hr] at h
        simp only [Option.some.injEq] at h
        obtain ⟨n, e, hre, hlen⟩ := ih hr
        exact ⟨c :: n, e, by simp [hre], by simp [hlen, ← h]⟩

theorem takeWhile_ne32_replicate (k : Nat) :
    (List.replicate k 32).takeWhile (fun c : Nat => c ≠ 32) = [] := by
  cases k with
  | zero => rfl
  | succ m => simp [List.replicate_succ, List.takeWhile_cons]

theorem takeWhile_ne32_pad (l : List Nat) (k : Nat) (h : ∀ c ∈ l, c ≠ 32) :
    (l ++ List.replicate k 32).takeWhile (fun c : Nat => c ≠ 32) = l := by
  rw [List.takeWhile_append_of_pos (by simpa using h), takeWhile_ne32_replicate,
    List.append_nil]

theorem filter_ne32_pad (l : List Nat) (k : Nat) (h : ∀ c ∈ l, c ≠ 32) :
    (l ++ List.replicate k 32).filter (fun c : Nat => c ≠ 32) = l := by
  rw [List.filter_append, List.filter_replicate_of_neg (by simp),
    List.filter_eq_self.mpr (by simpa using h), List.append_nil]

end Fat32

namespace Fat32

theorem padTo_length {l : List Nat} {n : Nat} (h : l.length ≤ n) :
    (padTo n l).length = n := by
  simp [padTo]
  omega

theorem upper_ne_32 {l : List Nat} (hok : ∀ c ∈ l, okChar c = true) :
    ∀ c ∈ l.map toUpperB, c ≠ 32 := by
  intro c hc
  obtain ⟨c0, hc0, rfl⟩ := List.mem_map.mp hc
  exact toUpperB_ne_32 (okChar_spec (hok c0 hc0)).1

theorem map_lower_upper (l : List Nat) :
    (l.map toUpperB).map toLowerB = l.map toLowerB := by
  rw [List.map_map]
  exact List.map_congr_left (fun a _ => toLowerB_toUpperB a)

/--
Round trip for a valid 8.3 name with no dot: converting to the 11-byte short
name and back yields the lowercased original.
-/
theorem roundtrip_nodot (n : List Nat) (h8 : n.length ≤ 8)
    (hok : ∀ c ∈ n, okChar c = true) :
    shortname_to_filename (filename_to_shortname n) = n.map toLowerB := by
  have hno46 : 46 ∉ n := fun hm => ((okChar_spec (hok _ hm)).2 rfl)
  have hld : lastDotIdx n = none := lastDotIdx_eq_none hno46
  have hfs : filename_to_shortname n = padTo 8 (n.map toUpperB) ++ padTo 3 [] := by
    unfold filename_to_shortname
    rw [hld]
    simp only [List.take_length, List.take_of_length_le h8]
  rw [hfs]
  have hlen8 : (padTo 8 (n.map toUpperB)).length = 8 :=
    padTo_length (by simpa using h8)
  unfold shortname_to_filename
  rw [List.take_left' hlen8, List.drop_left' hlen8]
  show (((padTo 8 (n.map toUpperB)).takeWhile fun c => c ≠ 32).map toLowerB) ++ _ =
    n.map toLowerB
  rw [show padTo 3 ([] : List Nat) = List.replicate 3 32 from rfl]
  rw [show (List.replicate 3 (32 : Nat)).take 3 = List.replicate 3 32 from rfl]
  rw [List.filter_replicate_of_neg (by simp)]
  unfold padTo
  rw [takeWhile_ne32_pad _ _ (upper_ne_32 hok), map_lower_upper]
  simp

/--
Round trip for a valid 8.3 name with a dot and a non-empty extension.
-/
theorem roundtrip_dot (n e : List Nat) (hn8 : n.length ≤ 8) (he3 : e.length ≤ 3)
    (hene : e ≠ []) (hokn : ∀ c ∈ n, okChar c = true) (hoke : ∀ c ∈ e, okChar c = true) :
    shortname_to_filename (filename_to_shortname (n ++ 46 :: e)) =
      (n ++ 46 :: e).map toLowerB := by
  have hno46e : 46 ∉ e := fun hm => ((okChar_spec (hoke _ hm)).2 rfl)
  have hld : lastDotIdx (n ++ 46 :: e) = some n.length := lastDotIdx_append_cons n e hno46e
  have hdrop : (n ++ 46 :: e).drop (n.length + 1) = e := by
    have : n ++ 46 :: e = (n ++ [46]) ++ e := by simp
    rw [this, List.drop_left' (by simp)]
  have hfs : filename_to_shortname (n ++ 46 :: e) =
      padTo 8 (n.map toUpperB) ++ padTo 3 (e.map toUpperB) := by
    unfold filename_to_shortname
    rw [hld]
    simp only
    rw [List.take_left, List.take_of_length_le hn8, hdrop, List.take_of_length_le he3]
  rw [hfs]
  have hlen8 : (padTo 8 (n.map toUpperB)).length = 8 :=
    padTo_length (by simpa using hn8)
  unfold shortname_to_filename
  rw [List.take_left' hlen8, List.drop_left' hlen8]
  show (((padTo 8 (n.map toUpperB)).takeWhile fun c => c ≠ 32).map toLowerB) ++ _ =
    (n ++ 46 :: e).map toLowerB
  have htake3 : (padTo 3 (e.map toUpperB)).take 3 = padTo 3 (e.map toUpperB) :=
    List.take_of_length_le (le_of_eq (padTo_length (by simpa using he3)))
  rw [htake3]
  show _ ++ (if ((((padTo 3 (e.map toUpperB)).filter fun c => c ≠ 32)).map toLowerB).isEmpty
    then [] else 46 :: _) = _
  unfold padTo
  rw [takeWhile_ne32_pad _ _ (upper_ne_32 hokn), filter_ne32_pad _ _ (upper_ne_32 hoke),
    map_lower_upper, map_lower_upper]
  have hne : (e.map toLowerB).isEmpty = false := by
    cases e with
    | nil => exact absurd rfl hene
    | cons a l => rfl
  rw [hne]
  simp [List.map_append]
  decide

end Fat32

open Fat32 in
/--
C8 (amended).  For every filename satisfying 8.3 validity that does not end
in a dot (a trailing dot is dropped by the conversion, see the
counterexample), converting to an 11-byte short name and back yields the
lowercased original — in particular the round trip is the identity up to
letter case.
-/
theorem claim_C8_amended (f : List Nat) (hv : valid_shortname f = true)
    (hlast : f.getLast? ≠ some 46) :
    shortname_to_filename (filename_to_shortname f) = f.map toLowerB ∧
    (shortname_to_filename (filename_to_shortname f)).map toLowerB = f.map toLowerB := by
  have main : shortname_to_filename (filename_to_shortname f) = f.map toLowerB := by
    unfold valid_shortname at hv
    by_cases hlen : f.length < 1 ∨ 12 < f.length
    · rw [if_pos hlen] at hv
      exact absurd hv (by simp)
    rw [if_neg hlen] at hv
    match hfd : firstDotIdx f with
    | none =>
      rw [hfd] at hv
      simp only [Bool.and_eq_true, decide_eq_true_eq, List.all_eq_true] at hv
      exact roundtrip_nodot f hv.1 hv.2
    | some i =>
      rw [hfd] at hv
      by_cases hld : lastDotIdx f = some i
      case neg => exact absurd hv (by simp [hld])
      by_cases hi0 : i = 0
      case pos => exact absurd hv (by simp [hld, hi0])
      have hv2 : (decide (1 ≤ (f.take i).length) && decide ((f.take i).length ≤ 8) &&
          decide ((f.drop (i + 1)).length ≤ 3) && (f.take i).all okChar &&
          (f.drop (i + 1)).all okChar) = true := by
        simpa [hld, hi0] using hv
      simp only [Bool.and_eq_true, decide_eq_true_eq, List.all_eq_true] at hv2
      obtain ⟨⟨⟨⟨h1len, h8len⟩, h3len⟩, hokn⟩, hoke⟩ := hv2
      obtain ⟨n, e, hfe, hni⟩ := firstDotIdx_decomp hfd
      subst hfe
      subst hni
      have htake : (n ++ 46 :: e).take n.length = n := List.take_left n (46 :: e)
      have hdropp : (n ++ 46 :: e).drop (n.length + 1) = e := by
        have : n ++ 46 :: e = (n ++ [46]) ++ e := by simp
        rw [this, List.drop_left' (by simp)]
      rw [htake] at h8len hokn
      rw [hdropp] at h3len hoke
      have hene : e ≠ [] := by
        intro he
        subst he
        exact hlast (List.getLast?_concat n)
      exact roundtrip_dot n e h8len h3len hene hokn hoke
  refine ⟨main, ?_⟩
  rw [main, List.map_map]
  exact List.map_congr_left (fun a _ => toLowerB_idem a)

open Fat32 in
/--
Witness for C8 (amended): `"README.TXT"` round-trips to `"readme.txt"`.
-/
theorem claim_C8_witness :
    shortname_to_filename (filename_to_shortname
        [82, 69, 65, 68, 77, 69, 46, 84, 88, 84]) =
      [114, 101, 97, 100, 109, 101, 46, 116, 120, 116] := by
  have h := claim_C8_amended [82, 69, 65, 68, 77, 69, 46, 84, 88, 84] rfl (by decide)
  rw [h.1]
  decide

namespace Fat32

/--
A 32-byte directory slot, as `unlink_entry` sees it: the first name byte
(`shortname[0]`, the deleted/end marker position), the attribute byte, and
the remaining 30 bytes as one opaque `payload` (never inspected or changed
by `unlink_entry`).
-/
structure Slot where
  first : Nat
  attr : Nat
  payload : Nat
  deriving DecidableEq, Repr

/-- Writing `FAT32_DIR_ENTRY_FREE` (0xE5) into a slot's first name byte. -/
def markDeleted (sl : Slot) : Slot := { sl with first := 0xE5 }

/--
Backward scan of `unlink_entry` (fat32.c:1030): for `i = 1` to
`MAX_LFN_PART` (20), stop when `offset < i*32` (start of the sector) or at
a slot whose attribute is not `FAT32_ATTR_LONG_NAME` (0x0F); mark each
long-name slot met.  `fuel` is the remaining iterations, 20 at the top.
-/
def unlink_loop (sec : Nat → Slot) (offset : Nat) (i : Nat) : Nat → (Nat → Slot)
  | 0 => sec
  | fuel + 1 =>
    if offset < i * 32 then sec
    else
      let j := (offset - i * 32) / 32
      if (sec j).attr = 0x0F then
        unlink_loop (fun x => if x = j then markDeleted (sec j) else sec x) offset (i + 1) fuel
      else sec

/--
`unlink_entry` (fat32.c:1015): a null entry or one with start cluster 0 is
rejected; otherwise the entry's sector is read, the contiguous long-name
slots immediately preceding the entry *within that sector* are marked
deleted, the 8.3 slot itself is marked deleted, and the sector is written
back.  The disk is a map from sector index to its 16 slots (slot index =
byte offset / 32).
-/
def unlink_entry (disk : Nat → Nat → Slot) (sector offset start_cluster : Nat) :
    Except Err (Nat → Nat → Slot) :=
  if start_cluster = 0 then .error .invalidParameter
  else
    let sec := disk sector
    let sec1 := unlink_loop sec offset 1 20
    let sec2 := fun x =>
      if x = offset / 32 then markDeleted (sec1 (offset / 32)) else sec1 x
    .ok (fun t => if t = sector then sec2 else disk t)

/--
The number of long-name slots the backward scan of `unlink_entry` marks:
how many consecutive `i` starting at `i` keep `offset ≥ i*32` and find
attribute 0x0F.
-/
def run_count (sec : Nat → Slot) (offset : Nat) (i : Nat) : Nat → Nat
  | 0 => 0
  | fuel + 1 =>
    if offset < i * 32 then 0
    else if (sec ((offset - i * 32) / 32)).attr = 0x0F then
      1 + run_count sec offset (i + 1) fuel
    else 0

/-- The scan length for the full loop (fuel 20, starting at `i = 1`). -/
def lfnRun (sec : Nat → Slot) (offset : Nat) : Nat := run_count sec offset 1 20

theorem markDeleted_idem (sl : Slot) : markDeleted (markDeleted sl) = markDeleted sl := rfl

theorem run_count_congr (offset : Nat) :
    ∀ (fuel : Nat) (sec1 sec2 : Nat → Slot) (i : Nat),
      (∀ x, (sec1 x).attr = (sec2 x).attr) →
      run_count sec1 offset i fuel = run_count sec2 offset i fuel := by
  intro fuel
  induction fuel with
  | zero => intro sec1 sec2 i h; rfl
  | succ n ih =>
    intro sec1 sec2 i h
    unfold run_count
    rw [h ((offset - i * 32) / 32), ih sec1 sec2 (i + 1) h]

theorem run_count_le (offset : Nat) :
    ∀ (fuel : Nat) (sec : Nat → Slot) (i m : Nat),
      i ≤ m → m < i + run_count sec offset i fuel → m * 32 ≤ offset := by
  intro fuel
  induction fuel with
  | zero =>
    intro sec i m him hm
    simp [run_count] at hm
    omega
  | succ n ih =>
    intro sec i m him hm
    unfold run_count at hm
    by_cases hb : offset < i * 32
    · rw [if_pos hb] at hm; omega
    · rw [if_neg hb] at hm
      by_cases ha : (sec ((offset - i * 32) / 32)).attr = 0x0F
      · rw [if_pos ha] at hm
        rcases Nat.eq_or_lt_of_le him with he | hlt
        · subst he; omega
        · exact ih sec (i + 1) m hlt (by omega)
      · rw [if_neg ha] at hm; omega

theorem unlink_loop_spec (offset : Nat) :
    ∀ (fuel : Nat) (sec : Nat → Slot) (i x : Nat),
      ((∃ m, i ≤ m ∧ m < i + run_count sec offset i fuel ∧ x = (offset - m * 32) / 32) →
        unlink_loop sec offset i fuel x = markDeleted (sec x)) ∧
      (¬(∃ m, i ≤ m ∧ m < i + run_count sec offset i fuel ∧ x = (offset - m * 32) / 32) →
        unlink_loop sec offset i fuel x = sec x) := by
  intro fuel
  induction fuel with
  | zero =>
    intro sec i x
    constructor
    · intro ⟨m, h1, h2, _⟩
      simp [run_count] at h2
      omega
    · intro _; rfl
  | succ n ih =>
    intro sec i x
    by_cases hb : offset < i * 32
    · constructor
      · intro ⟨m, h1, h2, _⟩
        simp [run_count, hb] at h2
        omega
      · intro _
        unfold unlink_loop
        rw [if_pos hb]
    · by_cases ha : (sec ((offset - i * 32) / 32)).attr = 0x0F
      · have hrun : run_count sec offset i (n + 1) =
            1 + run_count sec offset (i + 1) n := by
          conv_lhs => unfold run_count
          rw [if_neg hb, if_pos ha]
        have hloop : unlink_loop sec offset i (n + 1) =
            unlink_loop (fun x =>
              if x = (offset - i * 32) / 32
              then markDeleted (sec ((offset - i * 32) / 32)) else sec x) offset (i + 1) n := by
          conv_lhs => unfold unlink_loop
          rw [if_neg hb, if_pos ha]
        set j := (offset - i * 32) / 32 with hj
        set sec2 : Nat → Slot := fun x => if x = j then markDeleted (sec j) else sec x with hsec2
        have hattr : ∀ y, (sec2 y).attr = (sec y).attr := by
          intro y
          by_cases hy : y = j <;> simp [hsec2, hy, markDeleted]
        have hrc2 : run_count sec2 offset (i + 1) n = run_count sec offset (i + 1) n :=
          run_count_congr offset n sec2 sec (i + 1) hattr
        have ihx := ih sec2 (i + 1) x
        constructor
        · intro ⟨m, h1, h2, h3⟩
          rw [hrun] at h2
          rw [hloop]
          rcases Nat.eq_or_lt_of_le h1 with he | hlt
          · -- m = i : x is the slot marked in this iteration
            subst he
            subst h3
            by_cases hin : ∃ m2, i + 1 ≤ m2 ∧
                m2 < i + 1 + run_count sec2 offset (i + 1) n ∧
                (offset - i * 32) / 32 = (offset - m2 * 32) / 32
            · rw [ihx.1 hin]
              simp [hsec2, markDeleted_idem]
            · rw [ihx.2 hin]
              simp [hsec2]
          · -- m ≥ i + 1 : covered by the recursive call
            have hx : unlink_loop sec2 offset (i + 1) n x = markDeleted (sec2 x) := by
              apply ihx.1
              exact ⟨m, hlt, by omega, h3⟩
            rw [hx]
            by_cases hxj : x = j
            · subst hxj
              simp [hsec2, markDeleted_idem]
            · simp [hsec2, hxj]
        · intro hnot
          rw [hrun] at hnot
          rw [hloop]
          have hxj : x ≠ j := by
            intro he
            exact hnot ⟨i, le_refl i, by omega, by rw [he]⟩
          have hx : unlink_loop sec2 offset (i + 1) n x = sec2 x := by
            apply ihx.2
            intro ⟨m2, h1, h2, h3⟩
            rw [hrc2] at h2
            exact hnot ⟨m2, by omega, by omega, h3⟩
          rw [hx]
          simp [hsec2, hxj]
      · have hrun : run_count sec offset i (n + 1) = 0 := by
          unfold run_count
          rw [if_neg hb, if_neg ha]
        have hloop : unlink_loop sec offset i (n + 1) = sec := by
          unfold unlink_loop
          rw [if_neg hb, if_neg ha]
        constructor
        · intro ⟨m, h1, h2, _⟩
          rw [hrun] at h2
          omega
        · intro _
          rw [hloop]

end Fat32

open Fat32 in
/--
Counterexample for C4: a short-name entry at slot 0 of sector 5 whose two
long-name fragments run backwards across the sector boundary (one fragment
at slot 15 of sector 4).  `unlink_entry` marks the short-name slot deleted
but leaves the fragment in the preceding sector untouched (its backward
scan stops at `offset < i*32`, fat32.c:1032), contradicting the claim that
fragment runs crossing a sector boundary are marked too.
-/
theorem claim_C4_counterexample :
    (fun t j => if t = 4 ∧ j = 15 then (⟨0x41, 0x0F, 2⟩ : Slot)
      else if t = 5 ∧ j = 0 then ⟨0x41, 0x20, 1⟩ else ⟨0, 0, 0⟩) 4 15 =
      (⟨0x41, 0x0F, 2⟩ : Slot) ∧
    Except.map (fun d2 => d2 5 0)
      (unlink_entry (fun t j => if t = 4 ∧ j = 15 then (⟨0x41, 0x0F, 2⟩ : Slot)
        else if t = 5 ∧ j = 0 then ⟨0x41, 0x20, 1⟩ else ⟨0, 0, 0⟩) 5 0 3) =
      .ok ⟨0xE5, 0x20, 1⟩ ∧
    Except.map (fun d2 => d2 4 15)
      (unlink_entry (fun t j => if t = 4 ∧ j = 15 then (⟨0x41, 0x0F, 2⟩ : Slot)
        else if t = 5 ∧ j = 0 then ⟨0x41, 0x20, 1⟩ else ⟨0, 0, 0⟩) 5 0 3) =
      .ok ⟨0x41, 0x0F, 2⟩ ∧
    (⟨0x41, 0x0F, 2⟩ : Slot).first ≠ 0xE5 :=
  ⟨rfl, rfl, rfl, by decide⟩

open Fat32 in
/--
C4 (amended).  For every directory entry being unlinked (nonzero start
cluster, 32-byte-aligned offset), `unlink_entry` marks the short-name slot
deleted and also marks deleted every contiguous long-name fragment slot
immediately preceding it *within the same sector* (up to 20, but the scan
stops at the start of the sector, so fragment runs crossing a sector or
cluster boundary keep their earlier fragments); no other slot of any sector
changes, and even on marked slots only the first name byte changes.
-/
theorem claim_C4_amended (disk : Nat → Nat → Slot) (sector offset start : Nat)
    (hst : start ≠ 0) (hoff : 32 ∣ offset) :
    ∃ d2, unlink_entry disk sector offset start = .ok d2 ∧
      (∀ t, t ≠ sector → d2 t = disk t) ∧
      (∀ j, d2 sector j =
        if j = offset / 32 ∨
            (offset / 32 - lfnRun (disk sector) offset ≤ j ∧ j < offset / 32)
          then markDeleted (disk sector j) else disk sector j) := by
  obtain ⟨k, hk⟩ := hoff
  have hrep : unlink_entry disk sector offset start = .ok (fun t =>
      if t = sector then
        (fun x => if x = offset / 32
          then markDeleted ((unlink_loop (disk sector) offset 1 20) (offset / 32))
          else (unlink_loop (disk sector) offset 1 20) x)
      else disk t) := by
    unfold unlink_entry
    rw [if_neg hst]
  refine ⟨_, hrep, ?_, ?_⟩
  · intro t ht
    simp [ht]
  · intro j
    have hkdiv : offset / 32 = k := by omega
    simp only [eq_self_iff_true, if_true]
    set sec := disk sector with hsec
    have hspec := unlink_loop_spec offset 20 sec 1
    have hrn : lfnRun sec offset = run_count sec offset 1 20 := rfl
    set run := run_count sec offset 1 20 with hrunDef
    by_cases hjk : j = offset / 32
    · subst hjk
      rw [if_pos rfl, if_pos (Or.inl rfl)]
      have hfix : unlink_loop sec offset 1 20 (offset / 32) = sec (offset / 32) := by
        apply (hspec (offset / 32)).2
        intro ⟨m, h1, h2, h3⟩
        have hm32 := run_count_le offset 20 sec 1 m h1 h2
        omega
      rw [hfix]
    · rw [if_neg hjk]
      by_cases hin : offset / 32 - lfnRun sec offset ≤ j ∧ j < offset / 32
      · rw [if_pos (Or.inr hin)]
        rw [hrn] at hin
        apply (hspec j).1
        refine ⟨k - j, by omega, by omega, by omega⟩
      · rw [if_neg (by intro h; rcases h with h | h; exact hjk h; exact hin h)]
        apply (hspec j).2
        intro ⟨m, h1, h2, h3⟩
        have hm32 := run_count_le offset 20 sec 1 m h1 h2
        rw [hrn] at hin
        omega

open Fat32 in
/--
Witness for C4 (amended): a short-name slot at offset 96 (slot 3) of sector
7 with long-name fragments at slots 2 and 1; unlinking marks slots 3, 2 and
1 deleted and leaves slot 0 untouched.
-/
theorem claim_C4_witness :
    ∃ d2, unlink_entry (fun _ j =>
        if j = 1 ∨ j = 2 then (⟨0x41, 0x0F, 9⟩ : Slot)
        else if j = 3 then ⟨0x42, 0x20, 8⟩ else ⟨0x43, 0x20, 7⟩) 7 96 5 = .ok d2 ∧
      d2 7 3 = markDeleted ⟨0x42, 0x20, 8⟩ ∧
      d2 7 2 = markDeleted ⟨0x41, 0x0F, 9⟩ ∧
      d2 7 1 = markDeleted ⟨0x41, 0x0F, 9⟩ ∧
      d2 7 0 = ⟨0x43, 0x20, 7⟩ ∧
      d2 6 0 = ⟨0x43, 0x20, 7⟩ := by
  obtain ⟨d2, h1, h2, h3⟩ := claim_C4_amended (fun _ j =>
    if j = 1 ∨ j = 2 then (⟨0x41, 0x0F, 9⟩ : Slot)
    else if j = 3 then ⟨0x42, 0x20, 8⟩ else ⟨0x43, 0x20, 7⟩) 7 96 5
    (by decide) (by decide)
  have hrun : lfnRun ((fun (_ : Nat) (j : Nat) =>
      if j = 1 ∨ j = 2 then (⟨0x41, 0x0F, 9⟩ : Slot)
      else if j = 3 then ⟨0x42, 0x20, 8⟩ else ⟨0x43, 0x20, 7⟩) 7) 96 = 2 := rfl
  refine ⟨d2, h1, ?_, ?_, ?_, ?_, ?_⟩
  · have := h3 3
    rw [hrun] at this
    simpa using this
  · have := h3 2
    rw [hrun] at this
    simpa using this
  · have := h3 1
    rw [hrun] at this
    simpa using this
  · have := h3 0
    rw [hrun] at this
    simpa using this
  · have := h2 6 (by decide)
    rw [this]
    rfl

namespace Fat32

/-- The masked value a FAT read yields for cluster `c` (`entry & 0x0FFFFFFF`). -/
def rdf (fat : Nat → Nat) (c : Nat) : Nat := fat c &&& 0x0FFFFFFF

/--
A terminated cluster chain: the list of clusters reached from `c` by
following masked FAT entries, each below the end-of-chain range until the
last, whose entry reads as end-of-chain.  This is the shape the spec's
invariant "a cluster chain always terminates in the end-of-chain marker"
describes.
-/
inductive Chain (fat : Nat → Nat) : Nat → List Nat → Prop
  | single {c : Nat} : 2 ≤ c → EOC ≤ rdf fat c → Chain fat c [c]
  | cons {c : Nat} {l : List Nat} : 2 ≤ c → rdf fat c < EOC →
      Chain fat (rdf fat c) l → Chain fat c (c :: l)

theorem chain_ne_nil {fat : Nat → Nat} {c : Nat} {l : List Nat} (h : Chain fat c l) :
    l ≠ [] := by
  cases h <;> simp

theorem chain_length_pos {fat : Nat → Nat} {c : Nat} {l : List Nat} (h : Chain fat c l) :
    0 < l.length := by
  cases h <;> simp

theorem chain_head {fat : Nat → Nat} {c : Nat} {l : List Nat} (h : Chain fat c l)
    (h0 : 0 < l.length) : l.get ⟨0, h0⟩ = c := by
  cases h <;> rfl

theorem chain_head? {fat : Nat → Nat} {c : Nat} {l : List Nat} (h : Chain fat c l) :
    l.head? = some c := by
  cases h <;> rfl

theorem chain_mem_two_le {fat : Nat → Nat} {c : Nat} {l : List Nat} (h : Chain fat c l) :
    ∀ x ∈ l, 2 ≤ x := by
  induction h with
  | single h2 _ => intro x hx; simp at hx; omega
  | cons h2 _ _ ih =>
    intro x hx
    rcases List.mem_cons.mp hx with rfl | hx2
    · exact h2
    · exact ih x hx2

theorem chain_mem_rdf_ne_zero {fat : Nat → Nat} {c : Nat} {l : List Nat}
    (h : Chain fat c l) : ∀ x ∈ l, rdf fat x ≠ 0 := by
  induction h with
  | single _ he =>
    intro x hx
    simp at hx
    subst hx
    have : (0x0FFFFF8 : Nat) ≠ 0 := by norm_num
    unfold EOC at he
    omega
  | cons _ hlt hch ih =>
    intro x hx
    rcases List.mem_cons.mp hx with rfl | hx2
    · have := chain_mem_two_le hch (rdf fat x) (by
        have h0 := chain_length_pos hch
        have hh := chain_head hch h0
        exact hh ▸ List.get_mem _ 0 h0)
      omega
    · exact ih x hx2

theorem chain_suffix {fat : Nat → Nat} {c : Nat} {l : List Nat} (h : Chain fat c l) :
    ∀ (i : Nat) (hi : i < l.length), Chain fat (l.get ⟨i, hi⟩) (l.drop i) := by
  induction h with
  | single h2 he =>
    intro i hi
    simp at hi
    subst hi
    exact Chain.single h2 he
  | cons h2 hlt hch ih =>
    intro i hi
    match i with
    | 0 => exact Chain.cons h2 hlt hch
    | i + 1 => exact ih i (by simpa using hi)

theorem chain_det {fat : Nat → Nat} {c : Nat} {l1 : List Nat} (h1 : Chain fat c l1) :
    ∀ {l2 : List Nat}, Chain fat c l2 → l1 = l2 := by
  induction h1 with
  | single h2 he =>
    intro l2 h
    cases h with
    | single _ _ => rfl
    | cons _ hlt _ => omega
  | cons h2 hlt hch ih =>
    intro l2 h
    cases h with
    | single _ he => omega
    | cons _ _ hch2 => rw [ih hch2]

theorem chain_nodup {fat : Nat → Nat} {c : Nat} {l : List Nat} (h : Chain fat c l) :
    l.Nodup := by
  induction h with
  | single _ _ => simp
  | cons h2 hlt hch ih =>
    refine List.nodup_cons.mpr ⟨?_, ih⟩
    intro hmem
    obtain ⟨⟨i, hi⟩, hgi⟩ := List.mem_iff_get.mp hmem
    have hsuf := chain_suffix hch i hi
    rw [hgi] at hsuf
    have heq := chain_det (Chain.cons h2 hlt hch) hsuf
    have hlen := congrArg List.length heq
    simp at hlen
    omega

/-- Inversion for `Chain` by comparing the head's entry with the EOC range. -/
theorem chain_rdf_cases {fat : Nat → Nat} {c : Nat} {l : List Nat} (h : Chain fat c l) :
    (EOC ≤ rdf fat c ∧ l = [c]) ∨
    (rdf fat c < EOC ∧ ∃ l2, l = c :: l2 ∧ Chain fat (rdf fat c) l2) := by
  cases h with
  | single _ he => exact Or.inl ⟨he, rfl⟩
  | cons _ hlt hch => exact Or.inr ⟨hlt, _, rfl, hch⟩

theorem chain_get_succ {fat : Nat → Nat} {c : Nat} {l : List Nat} (h : Chain fat c l)
    (i : Nat) (h2 : i + 1 < l.length) :
    rdf fat (l.get ⟨i, by omega⟩) = l.get ⟨i + 1, h2⟩ ∧
      rdf fat (l.get ⟨i, by omega⟩) < EOC := by
  have hsuf := chain_suffix h i (by omega)
  have hdropeq : l.drop i = l.get ⟨i, by omega⟩ :: l.drop (i + 1) :=
    List.drop_eq_get_cons (by omega)
  rcases chain_rdf_cases hsuf with ⟨he, hl⟩ | ⟨hlt, l2, hl, hch⟩
  · exfalso
    rw [hl] at hdropeq
    have := congrArg List.length hdropeq
    simp at this
    omega
  · rw [hdropeq] at hl
    have hl2 : l2 = l.drop (i + 1) := by
      injection hl with hh1 hh2
      exact hh2.symm
    subst hl2
    have hh : (l.drop (i + 1)).head? = some (rdf fat (l.get ⟨i, by omega⟩)) :=
      chain_head? hch
    have hdropeq2 : l.drop (i + 1) = l.get ⟨i + 1, h2⟩ :: l.drop (i + 2) :=
      List.drop_eq_get_cons h2
    rw [hdropeq2, List.head?_cons] at hh
    injection hh with hh3
    exact ⟨hh3.symm, hlt⟩

end Fat32

namespace Fat32

theorem chain_last_eoc {fat : Nat → Nat} {c : Nat} {l : List Nat} (h : Chain fat c l) :
    EOC ≤ rdf fat (l.getLast (chain_ne_nil h)) := by
  induction h with
  | single _ he => exact he
  | cons h2 hlt hch ih =>
    rw [List.getLast_cons (chain_ne_nil hch)]
    exact ih

theorem chain_congr {fat fat2 : Nat → Nat} {c : Nat} {l : List Nat}
    (hfr : ∀ x ∈ l, fat2 x = fat x) (h : Chain fat c l) : Chain fat2 c l := by
  induction h with
  | single h2 he =>
    refine Chain.single h2 ?_
    rw [show rdf fat2 _ = rdf fat _ from by unfold rdf; rw [hfr _ (by simp)]]
    exact he
  | @cons c2 l2 h2 hlt hch ih =>
    have hceq : rdf fat2 c2 = rdf fat c2 := by
      unfold rdf
      rw [hfr c2 (by simp)]
    refine Chain.cons h2 (hceq ▸ hlt) ?_
    rw [hceq]
    exact ih (fun x hx => hfr x (List.mem_cons_of_mem _ hx))

/--
Relinking: overwrite the entry of the chain element at index `t` to point
at a fresh cluster `nc` whose entry is end-of-chain; the chain becomes the
first `t+1` clusters followed by `nc` (the old tail is orphaned).  This is
the combined effect of `allocate_and_link_cluster` on a chain.
-/
theorem chain_relink {fat fat2 : Nat → Nat} {c : Nat} {l : List Nat} {nc : Nat} :
    ∀ (t : Nat) (hch : Chain fat c l) (ht : t < l.length),
    2 ≤ nc → nc < EOC → nc ∉ l →
    (∀ x ∈ l, x ≠ l.get ⟨t, ht⟩ → fat2 x = fat x) →
    rdf fat2 (l.get ⟨t, ht⟩) = nc →
    EOC ≤ rdf fat2 nc →
    Chain fat2 c (l.take (t + 1) ++ [nc]) := by
  intro t
  induction t generalizing c l with
  | zero =>
    intro hch ht hnc2 hncE hncl hframe hwr hend
    have hh := chain_head hch ht
    have htake : l.take 1 = [c] := by
      rcases chain_rdf_cases hch with ⟨_, hl⟩ | ⟨_, l2, hl, _⟩ <;> rw [hl] <;> rfl
    rw [htake]
    have hc2 := chain_mem_two_le hch c (by rw [← hh]; exact List.get_mem _ 0 ht)
    refine Chain.cons hc2 ?_ ?_
    · rw [show l.get ⟨0, ht⟩ = c from hh] at hwr
      rw [hwr]
      exact hncE
    · rw [show l.get ⟨0, ht⟩ = c from hh] at hwr
      rw [hwr]
      exact Chain.single hnc2 hend
  | succ t ih =>
    intro hch ht hnc2 hncE hncl hframe hwr hend
    rcases chain_rdf_cases hch with ⟨_, hl⟩ | ⟨hlt, l2, hl, hch2⟩
    · subst hl
      simp at ht
    · subst hl
      have hnodup := chain_nodup hch
      have hcnotin : c ∉ l2 := (List.nodup_cons.mp hnodup).1
      have hgt : (c :: l2).get ⟨t + 1, ht⟩ = l2.get ⟨t, by simpa using ht⟩ := rfl
      have hcne : c ≠ l2.get ⟨t, by simpa using ht⟩ := by
        intro he
        exact hcnotin (he ▸ List.get_mem _ t _)
      have hceq : rdf fat2 c = rdf fat c := by
        unfold rdf
        rw [hframe c (by simp) (by rw [hgt]; exact hcne)]
      have htake : (c :: l2).take (t + 2) = c :: l2.take (t + 1) := rfl
      rw [htake]
      refine Chain.cons (chain_mem_two_le hch c (by simp)) (hceq ▸ hlt) ?_
      rw [hceq]
      refine ih hch2 (by simpa using ht) hnc2 hncE
        (fun hmem => hncl (List.mem_cons_of_mem _ hmem)) ?_ ?_ hend
      · intro x hx hxne
        exact hframe x (List.mem_cons_of_mem _ hx) (by rw [hgt]; exact hxne)
      · rw [← hgt]
        exact hwr

end Fat32

namespace Fat32

theorem eoc_lt_two_pow : EOC < 2 ^ 28 := by
  unfold EOC
  norm_num

theorem read_fat_ok (s : Fs) (c : Nat) (h : 2 ≤ c) :
    read_cluster_fat_entry s c = .ok (rdf s.fat c) := by
  unfold read_cluster_fat_entry rdf
  rw [if_neg (by omega)]

/-- The updated FAT function a successful `write_cluster_fat_entry` installs. -/
def fatUpd (fat : Nat → Nat) (c v : Nat) : Nat → Nat :=
  fun x => if x = c then (fat c &&& 0xF0000000) ||| (v &&& 0x0FFFFFFF) else fat x

theorem write_fat_ok (s : Fs) (c v : Nat) (h : 2 ≤ c) :
    write_cluster_fat_entry s c v = .ok { s with fat := fatUpd s.fat c v } := by
  unfold write_cluster_fat_entry fatUpd
  rw [if_neg (by omega)]

theorem rdf_fatUpd_self (fat : Nat → Nat) (c v : Nat) (hv : v < 2 ^ 28) :
    rdf (fatUpd fat c v) c = v := by
  unfold rdf fatUpd
  rw [if_pos rfl, entry_low_bits, and_low_mask, Nat.mod_eq_of_lt hv]

theorem rdf_fatUpd_other (fat : Nat → Nat) (c v x : Nat) (hx : x ≠ c) :
    rdf (fatUpd fat c v) x = rdf fat x := by
  unfold rdf fatUpd
  rw [if_neg hx]

theorem fatUpd_other (fat : Nat → Nat) (c v x : Nat) (hx : x ≠ c) :
    fatUpd fat c v x = fat x := by
  unfold fatUpd
  rw [if_neg hx]

theorem dec_free_hint_parts (s : Fs) :
    (dec_free_hint s).fat = s.fat ∧ (dec_free_hint s).clusterCount = s.clusterCount ∧
      (dec_free_hint s).spc = s.spc := by
  unfold dec_free_hint
  split_ifs <;> exact ⟨rfl, rfl, rfl⟩

theorem gnfc_loop_ok (s : Fs) :
    ∀ (fuel i nc : Nat), get_next_free_loop s i fuel = .ok nc →
      2 ≤ nc ∧ rdf s.fat nc = 0 ∧ nc < i + fuel := by
  intro fuel
  induction fuel with
  | zero =>
    intro i nc h
    exact absurd h (by simp [get_next_free_loop])
  | succ m ih =>
    intro i nc h
    unfold get_next_free_loop at h
    by_cases hi : i < 2
    · rw [show read_cluster_fat_entry s i = .error .invalidParameter from by
        unfold read_cluster_fat_entry; rw [if_pos hi]] at h
      exact absurd h (by simp)
    · rw [read_fat_ok s i (by omega)] at h
      simp only at h
      by_cases hv : rdf s.fat i = FREE
      · rw [if_pos hv] at h
        injection h with h2
        subst h2
        exact ⟨by omega, hv, by omega⟩
      · rw [if_neg hv] at h
        have := ih (i + 1) nc h
        exact ⟨this.1, this.2.1, by omega⟩

theorem gnfc_ok (s : Fs) (nc : Nat) (h : get_next_free_cluster s = .ok nc) :
    2 ≤ nc ∧ rdf s.fat nc = 0 ∧ nc < s.clusterCount + 2 := by
  unfold get_next_free_cluster at h
  have hl := gnfc_loop_ok s _ _ _ h
  rcases le_or_lt (if s.nextFree ≠ UNKNOWN then s.nextFree else 2) (s.clusterCount + 2)
    with hle | hgt
  · exact ⟨hl.1, hl.2.1, by omega⟩
  · rw [show s.clusterCount + 2 - (if s.nextFree ≠ UNKNOWN then s.nextFree else 2) = 0 from
      by omega] at h
    exact absurd h (by simp [get_next_free_loop])

theorem alloc_ok (s : Fs) (last nc : Nat) (s1 : Fs)
    (h : allocate_and_link_cluster s last = .ok (nc, s1))
    (hgeom : s.clusterCount + 2 ≤ EOC) (hl2 : 2 ≤ last) (hl0 : rdf s.fat last ≠ 0) :
    2 ≤ nc ∧ nc < EOC ∧ rdf s.fat nc = 0 ∧ nc ≠ last ∧
    rdf s1.fat last = nc ∧ EOC ≤ rdf s1.fat nc ∧
    (∀ x, x ≠ last → x ≠ nc → s1.fat x = s.fat x) ∧
    s1.clusterCount = s.clusterCount ∧ s1.spc = s.spc := by
  unfold allocate_and_link_cluster at h
  match hg : get_next_free_cluster s with
  | .error e =>
    rw [hg] at h
    exact absurd h (by simp)
  | .ok nc0 =>
    obtain ⟨hnc2, hncfree, hncbound⟩ := gnfc_ok s nc0 hg
    have hncE : nc0 < EOC := by omega
    have hne : nc0 ≠ last := fun he => hl0 (he ▸ hncfree)
    have hw1 := write_fat_ok s last nc0 hl2
    have hw2 := write_fat_ok { s with fat := fatUpd s.fat last nc0 } nc0 EOC hnc2
    simp only [hg, hw1, hw2, Except.ok.injEq, Prod.mk.injEq] at h
    obtain ⟨hnc, hs1⟩ := h
    subst hnc
    subst hs1
    obtain ⟨hfat, hcc, hspc⟩ := dec_free_hint_parts
      { s with fat := fatUpd (fatUpd s.fat last nc0) nc0 EOC }
    refine ⟨hnc2, hncE, hncfree, hne, ?_, ?_, ?_, hcc, hspc⟩
    · rw [hfat]
      simp only
      rw [rdf_fatUpd_other _ _ _ _ (Ne.symm hne),
        rdf_fatUpd_self _ _ _ (by have := eoc_lt_two_pow; omega)]
    · rw [hfat]
      simp only
      rw [rdf_fatUpd_self _ _ _ eoc_lt_two_pow]
    · intro x hxl hxn
      rw [hfat]
      simp only
      rw [fatUpd_other _ _ _ _ hxn, fatUpd_other _ _ _ _ hxl]

end Fat32

namespace Fat32

theorem get_idx_congr {l : List Nat} {i j : Nat} (h : i = j) (hi : i < l.length) :
    l.get ⟨i, hi⟩ = l.get ⟨j, h ▸ hi⟩ := by
  subst h
  rfl

theorem get_concat_self (l : List Nat) (a : Nat) (h : l.length < (l ++ [a]).length) :
    (l ++ [a]).get ⟨l.length, h⟩ = a := by
  rw [List.get_eq_getElem]
  exact List.getElem_concat_length l a l.length rfl _

theorem chain_step_ok {s : Fs} {start : Nat} {l : List Nat} (hch : Chain s.fat start l) :
    ∀ (n j : Nat) (hjn : j + n < l.length),
      chain_step s (l.get ⟨j, by omega⟩) n = .ok (l.get ⟨j + n, hjn⟩) := by
  intro n
  induction n with
  | zero =>
    intro j hjn
    rfl
  | succ m ih =>
    intro j hjn
    have hj1 : j + 1 < l.length := by omega
    have hg := chain_get_succ hch j hj1
    unfold chain_step
    rw [read_fat_ok s _ (chain_mem_two_le hch _ (List.get_mem _ j _))]
    simp only
    rw [hg.1]
    have hstep := ih (j + 1) (by omega)
    rw [hstep]
    exact congrArg Except.ok (get_idx_congr (by omega) _).symm

theorem seek_ok {s : Fs} {start : Nat} {l : List Nat} (hch : Chain s.fat start l) :
    ∀ (off j : Nat) (hjn : j + off < l.length),
      seek_to_cluster s (l.get ⟨j, by omega⟩) off = .ok (l.get ⟨j + off, hjn⟩) := by
  intro off
  induction off with
  | zero =>
    intro j hjn
    rfl
  | succ m ih =>
    intro j hjn
    have hj1 : j + 1 < l.length := by omega
    have hg := chain_get_succ hch j hj1
    unfold seek_to_cluster
    rw [read_fat_ok s _ (chain_mem_two_le hch _ (List.get_mem _ j _))]
    simp only
    rw [hg.1, if_neg (by have := hg.1 ▸ hg.2; omega)]
    have hstep := ih (j + 1) (by omega)
    rw [hstep]
    exact congrArg Except.ok (get_idx_congr (by omega) _).symm

theorem walk_loop_ok {start : Nat} :
    ∀ (steps : Nat) (s : Fs) (l : List Nat) (j : Nat) (hj : j < l.length) (cl1 : Nat)
      (s1 : Fs),
    write_walk_loop s (l.get ⟨j, hj⟩) steps = .ok (cl1, s1) →
    Chain s.fat start l →
    s.clusterCount + 2 ≤ EOC →
    ∃ l2, Chain s1.fat start l2 ∧ l2.length = max l.length (j + steps + 1) ∧
      s1.clusterCount = s.clusterCount ∧ s1.spc = s.spc := by
  intro steps
  induction steps with
  | zero =>
    intro s l j hj cl1 s1 h hch hgeom
    unfold write_walk_loop at h
    simp only [Except.ok.injEq, Prod.mk.injEq] at h
    obtain ⟨-, hs1⟩ := h
    subst hs1
    exact ⟨l, hch, by omega, rfl, rfl⟩
  | succ m ih =>
    intro s l j hj cl1 s1 h hch hgeom
    unfold write_walk_loop at h
    rw [read_fat_ok s _ (chain_mem_two_le hch _ (List.get_mem _ j _))] at h
    simp only at h
    by_cases hlast : j + 1 < l.length
    · have hg := chain_get_succ hch j hlast
      rw [hg.1, if_neg (by have := hg.1 ▸ hg.2; omega)] at h
      obtain ⟨l2, hch2, hlen2, hcc2, hspc2⟩ := ih s l (j + 1) hlast cl1 s1 h hch hgeom
      exact ⟨l2, hch2, by omega, hcc2, hspc2⟩
    · have hj1 : j = l.length - 1 := by omega
      have hgl : l.get ⟨j, hj⟩ = l.getLast (chain_ne_nil hch) := by
        rw [List.getLast_eq_get]
        exact get_idx_congr (by omega) hj
      have heoc : EOC ≤ rdf s.fat (l.get ⟨j, hj⟩) := by
        rw [hgl]
        exact chain_last_eoc hch
      rw [if_pos heoc] at h
      match ha : allocate_and_link_cluster s (l.get ⟨j, hj⟩) with
      | .error e =>
        rw [ha] at h
        exact absurd h (by simp)
      | .ok (nc, sA) =>
        rw [ha] at h
        simp only at h
        obtain ⟨hnc2, hncE, hncfree, hncne, hwr, hend, hframe, hccA, hspcA⟩ :=
          alloc_ok s _ nc sA ha hgeom
            (chain_mem_two_le hch _ (List.get_mem _ j _)) (by omega)
        have hncl : nc ∉ l := fun hmem => chain_mem_rdf_ne_zero hch nc hmem hncfree
        have hchA : Chain sA.fat start (l.take (j + 1) ++ [nc]) := by
          refine chain_relink j hch hj hnc2 hncE hncl ?_ hwr hend
          intro x hx hxne
          exact hframe x hxne (fun he => hncl (he ▸ hx))
        have htake : l.take (j + 1) = l := List.take_of_length_le (by omega)
        rw [htake] at hchA
        have hget : (l ++ [nc]).get ⟨j + 1, by simp; omega⟩ = nc := by
          rw [get_idx_congr (show j + 1 = l.length from by omega)]
          exact get_concat_self l nc (by simp)
        rw [← hget] at h
        obtain ⟨l2, hch2, hlen2, hcc2, hspc2⟩ :=
          ih sA (l ++ [nc]) (j + 1) (by simp; omega) cl1 s1 h hchA (by omega)
        refine ⟨l2, hch2, ?_, by omega, by rw [hspc2, hspcA]⟩
        rw [hlen2]
        simp
        omega

end Fat32

namespace Fat32

theorem alloc_steps_snoc {start current0 : Nat} (hc0 : 1 ≤ current0) :
    ∀ (k i : Nat) (s : Fs) (f : File) (l : List Nat) (s2 : Fs) (f2 : File) (last2 : Nat)
      (hne : l ≠ []),
    write_alloc_steps s f (l.getLast hne) current0 i k = .ok (s2, f2, last2) →
    Chain s.fat start l →
    s.clusterCount + 2 ≤ EOC →
    ∃ l2, Chain s2.fat start l2 ∧ l2.length = l.length + k ∧ f2 = f ∧
      s2.clusterCount = s.clusterCount ∧ s2.spc = s.spc := by
  intro k
  induction k with
  | zero =>
    intro i s f l s2 f2 last2 hne h hch hgeom
    unfold write_alloc_steps at h
    simp only [Except.ok.injEq, Prod.mk.injEq] at h
    obtain ⟨hs, hf, -⟩ := h
    subst hs
    subst hf
    exact ⟨l, hch, by omega, rfl, rfl, rfl⟩
  | succ m ih =>
    intro i s f l s2 f2 last2 hne h hch hgeom
    unfold write_alloc_steps at h
    rw [if_pos (Or.inl (by omega))] at h
    match ha : allocate_and_link_cluster s (l.getLast hne) with
    | .error e =>
      rw [ha] at h
      exact absurd h (by simp)
    | .ok (nc, sA) =>
      rw [ha] at h
      simp only at h
      have hlastmem : l.getLast hne ∈ l := List.getLast_mem hne
      obtain ⟨hnc2, hncE, hncfree, hncne, hwr, hend, hframe, hccA, hspcA⟩ :=
        alloc_ok s _ nc sA ha hgeom (chain_mem_two_le hch _ hlastmem)
          (chain_mem_rdf_ne_zero hch _ hlastmem)
      have hncl : nc ∉ l := fun hmem => chain_mem_rdf_ne_zero hch nc hmem hncfree
      have hlenpos := chain_length_pos hch
      have hgl : l.getLast hne = l.get ⟨l.length - 1, by omega⟩ := by
        rw [List.getLast_eq_get]
      have hchA : Chain sA.fat start (l.take (l.length - 1 + 1) ++ [nc]) := by
        refine chain_relink (l.length - 1) hch (by omega) hnc2 hncE hncl ?_ ?_ hend
        · intro x hx hxne
          refine hframe x ?_ (fun he => hncl (he ▸ hx))
          rw [hgl]
          exact hxne
        · rw [← hgl]
          exact hwr
      have htake : l.take (l.length - 1 + 1) = l := List.take_of_length_le (by omega)
      rw [htake] at hchA
      have hlast2 : nc = (l ++ [nc]).getLast (by simp) := (List.getLast_concat _).symm
      rw [hlast2] at h
      obtain ⟨l2, hch2, hlen2, hf2, hcc2, hspc2⟩ :=
        ih (i + 1) sA f (l ++ [nc]) s2 f2 last2 (by simp) h hchA (by omega)
      refine ⟨l2, hch2, ?_, hf2, by omega, by rw [hspc2, hspcA]⟩
      rw [hlen2]
      simp
      omega

theorem alloc_steps_main {start : Nat} {k current : Nat} (hc : 1 ≤ current)
    {s : Fs} {f : File} {l : List Nat} {s2 : Fs} {f2 : File} {last2 : Nat}
    (hch : Chain s.fat start l) (hcl : current ≤ l.length)
    (hgeom : s.clusterCount + 2 ≤ EOC)
    (h : write_alloc_steps s f (l.get ⟨current - 1, by omega⟩) current current k =
      .ok (s2, f2, last2)) :
    ∃ l2, Chain s2.fat start l2 ∧
      l2.length = (if k = 0 then l.length else current + k) ∧
      f2 = f ∧ s2.clusterCount = s.clusterCount ∧ s2.spc = s.spc := by
  match k with
  | 0 =>
    unfold write_alloc_steps at h
    simp only [Except.ok.injEq, Prod.mk.injEq] at h
    obtain ⟨hs, hf, -⟩ := h
    subst hs
    subst hf
    exact ⟨l, hch, by simp, rfl, rfl, rfl⟩
  | m + 1 =>
    unfold write_alloc_steps at h
    rw [if_pos (Or.inl (by omega))] at h
    match ha : allocate_and_link_cluster s (l.get ⟨current - 1, by omega⟩) with
    | .error e =>
      rw [ha] at h
      exact absurd h (by simp)
    | .ok (nc, sA) =>
      rw [ha] at h
      simp only at h
      obtain ⟨hnc2, hncE, hncfree, hncne, hwr, hend, hframe, hccA, hspcA⟩ :=
        alloc_ok s _ nc sA ha hgeom
          (chain_mem_two_le hch _ (List.get_mem _ _ _))
          (fun he => by
            have := chain_mem_rdf_ne_zero hch _ (List.get_mem _ (current - 1) (by omega))
            exact this he)
      have hncl : nc ∉ l := fun hmem => chain_mem_rdf_ne_zero hch nc hmem hncfree
      have hchA : Chain sA.fat start (l.take (current - 1 + 1) ++ [nc]) := by
        refine chain_relink (current - 1) hch (by omega) hnc2 hncE hncl ?_ hwr hend
        intro x hx hxne
        exact hframe x hxne (fun he => hncl (he ▸ hx))
      have htake1 : current - 1 + 1 = current := by omega
      rw [htake1] at hchA
      have hlentake : (l.take current ++ [nc]).length = current + 1 := by
        simp
        omega
      have hlast2 : nc = (l.take current ++ [nc]).getLast (by simp) :=
        (List.getLast_concat _).symm
      rw [hlast2] at h
      obtain ⟨l2, hch2, hlen2, hf2, hcc2, hspc2⟩ :=
        alloc_steps_snoc hc m (current + 1) sA f (l.take current ++ [nc]) s2 f2 last2
          (by simp) h hchA (by omega)
      refine ⟨l2, hch2, ?_, hf2, by omega, by rw [hspc2, hspcA]⟩
      rw [hlen2, hlentake]
      simp
      omega

end Fat32

namespace Fat32

theorem write_copy_loop_result :
    ∀ (fuel : Nat) (s : Fs) (size total pos cluster t q c : Nat),
    total ≤ size →
    pos + (size - total) < 2 ^ 32 →
    write_copy_loop s size total pos cluster fuel = some (.ok (t, q, c)) →
    t = size ∧ q = pos + (size - total) := by
  intro fuel
  induction fuel with
  | zero =>
    intro s size total pos cluster t q c hts hwrap h
    unfold write_copy_loop at h
    by_cases hlt : total < size
    · rw [if_pos hlt] at h
      exact absurd h (by simp)
    · rw [if_neg hlt] at h
      simp only [Option.some.injEq, Except.ok.injEq, Prod.mk.injEq] at h
      omega
  | succ m ih =>
    intro s size total pos cluster t q c hts hwrap h
    unfold write_copy_loop at h
    by_cases hlt : total < size
    · simp only [if_pos hlt] at h
      have hbl : pos % s.bpc % 512 < 512 := Nat.mod_lt _ (by norm_num)
      have hwle : min (512 - pos % s.bpc % 512) (size - total) ≤ size - total :=
        min_le_right _ _
      have hnm : (pos + min (512 - pos % s.bpc % 512) (size - total)) % 2 ^ 32 =
          pos + min (512 - pos % s.bpc % 512) (size - total) :=
        Nat.mod_eq_of_lt (by omega)
      rw [hnm] at h
      by_cases hcross :
          (pos + min (512 - pos % s.bpc % 512) (size - total)) % s.bpc = 0 ∧
          total + min (512 - pos % s.bpc % 512) (size - total) < size
      · rw [if_pos hcross] at h
        match hr : read_cluster_fat_entry s cluster with
        | .error e =>
          rw [hr] at h
          exact absurd h (by simp)
        | .ok next =>
          rw [hr] at h
          simp only [] at h
          by_cases hE : EOC ≤ next
          · rw [if_pos hE] at h
            exact absurd h (by simp)
          · rw [if_neg hE] at h
            obtain ⟨ht, hq⟩ := ih s size _ _ next t q c (by omega) (by omega) h
            constructor
            · exact ht
            · rw [hq]
              omega
      · rw [if_neg hcross] at h
        obtain ⟨ht, hq⟩ := ih s size _ _ cluster t q c (by omega) (by omega) h
        constructor
        · exact ht
        · rw [hq]
          omega
    · rw [if_neg hlt] at h
      simp only [Option.some.injEq, Except.ok.injEq, Prod.mk.injEq] at h
      omega

theorem write_len_arith (bpc pos size fs : Nat) (hb : 0 < bpc) (hs : 1 ≤ size) :
    pos / bpc + 1 ≤ (pos + size + bpc - 1) / bpc ∧
    1 ≤ (pos + size + bpc - 1) / bpc ∧
    max 1 ((max fs (pos + size) + bpc - 1) / bpc) =
      max (max 1 ((fs + bpc - 1) / bpc)) ((pos + size + bpc - 1) / bpc) := by
  have h1 : (pos + bpc) / bpc = pos / bpc + 1 := Nat.add_div_right pos hb
  have h3 : (pos + bpc) / bpc ≤ (pos + size + bpc - 1) / bpc :=
    Nat.div_le_div_right (by omega)
  rw [h1] at h3
  have h4 : 1 ≤ (pos + size + bpc - 1) / bpc := by
    rw [Nat.le_div_iff_mul_le hb]
    omega
  refine ⟨h3, h4, ?_⟩
  rcases le_total fs (pos + size) with hle | hle
  · rw [max_eq_right hle]
    have h5 : (fs + bpc - 1) / bpc ≤ (pos + size + bpc - 1) / bpc :=
      Nat.div_le_div_right (by omega)
    omega
  · rw [max_eq_left hle]
    have h5 : (pos + size + bpc - 1) / bpc ≤ (fs + bpc - 1) / bpc :=
      Nat.div_le_div_right (by omega)
    omega

/--
Effect of a successful `fat32_write` of at least one byte on a handle whose
chain satisfies the length invariant `length = max 1 ⌈file_size / bpc⌉`:
the start cluster is kept, the logical size becomes
`max file_size (position + size)`, all `size` bytes are written, and the
chain again satisfies the invariant at the new size.
-/
theorem fat32_write_preserves {s : Fs} {f : File} {size fuel : Nat} {s2 : Fs}
    {total : Nat} {f2 : File} {l : List Nat}
    (hch : Chain s.fat f.start_cluster l)
    (hinv : l.length = max 1 ((f.file_size + s.bpc - 1) / s.bpc))
    (hgeom : s.clusterCount + 2 ≤ EOC)
    (hsz : 1 ≤ size)
    (hspc : 0 < s.spc)
    (hnw : f.position + size + s.bpc ≤ 2 ^ 32)
    (hfsm : f.file_size + s.bpc ≤ 2 ^ 32)
    (h : fat32_write s f size fuel = some (.ok (s2, total, f2))) :
    ∃ l2, Chain s2.fat f2.start_cluster l2 ∧
      l2.length = max 1 ((f2.file_size + s2.bpc - 1) / s2.bpc) ∧
      f2.start_cluster = f.start_cluster ∧
      f2.file_size = max f.file_size (f.position + size) ∧
      f2.position = f.position + size ∧
      total = size ∧
      s2.clusterCount = s.clusterCount ∧ s2.spc = s.spc := by
  have hb : 0 < s.bpc := Nat.mul_pos hspc (by norm_num)
  have hlpos : 0 < l.length := chain_length_pos hch
  unfold fat32_write at h
  rcases Bool.eq_false_or_eq_true f.is_open with ho | ho
  swap
  · rw [if_pos (by simp [ho])] at h
    exact absurd h (by simp)
  rw [if_neg (by simp [ho])] at h
  by_cases hatt : f.attributes &&& 0x10 = 0
  swap
  · rw [if_pos hatt] at h
    exact absurd h (by simp)
  rw [if_neg (not_not_intro hatt)] at h
  match hw : write_walk_loop s f.start_cluster (f.position / s.bpc) with
  | .error e =>
    rw [hw] at h
    exact absurd h (by simp)
  | .ok (cl1, s1) =>
    simp only [hw] at h
    rw [← chain_head hch hlpos] at hw
    obtain ⟨l1, hch1, hlen1, hcc1, hspc1⟩ :=
      walk_loop_ok (f.position / s.bpc) s l 0 hlpos cl1 s1 hw hch hgeom
    have hbpc1 : s1.bpc = s.bpc := by unfold Fs.bpc; rw [hspc1]
    rw [hbpc1] at h
    have hm1 : (f.position + size) % 2 ^ 32 = f.position + size :=
      Nat.mod_eq_of_lt (by omega)
    rw [hm1] at h
    have hm2 : (f.position + size + s.bpc - 1) % 2 ^ 32 = f.position + size + s.bpc - 1 :=
      Nat.mod_eq_of_lt (by omega)
    rw [hm2] at h
    have hm3 : (f.file_size + s.bpc - 1) % 2 ^ 32 = f.file_size + s.bpc - 1 :=
      Nat.mod_eq_of_lt (by omega)
    rw [hm3] at h
    have hcurval :
        (if f.file_size = 0 then 1 else (f.file_size + s.bpc - 1) / s.bpc) = l.length := by
      rcases Nat.eq_zero_or_pos f.file_size with h0 | h0
      · rw [if_pos h0]
        rw [h0] at hinv
        rw [Nat.div_eq_of_lt (by omega)] at hinv
        omega
      · rw [if_neg (by omega)]
        have h1 : 1 ≤ (f.file_size + s.bpc - 1) / s.bpc := by
          rw [Nat.le_div_iff_mul_le hb]
          omega
        omega
    rw [hcurval] at h
    rw [if_pos hlpos] at h
    have hfl : find_last_cluster s1 f.start_cluster l.length =
        .ok (l1.get ⟨l.length - 1, by omega⟩) := by
      unfold find_last_cluster
      have h0 : (0 : Nat) < l1.length := by omega
      have hcs := chain_step_ok hch1 (l.length - 1) 0 (by omega)
      rw [chain_head hch1 h0] at hcs
      rw [hcs]
      exact congrArg Except.ok (get_idx_congr (by omega) _)
    rw [hfl] at h
    simp only [] at h
    match hA : write_alloc_steps s1 { f with current_cluster := cl1 }
        (l1.get ⟨l.length - 1, by omega⟩) l.length l.length
        ((f.position + size + s.bpc - 1) / s.bpc - l.length) with
    | .error e =>
      rw [hA] at h
      exact absurd h (by simp)
    | .ok (sA, fA, lastA) =>
      simp only [hA] at h
      obtain ⟨l2, hch2, hlen2, hfA, hcc2, hspc2⟩ :=
        alloc_steps_main (by omega) hch1 (by omega)
          (by omega) hA
      subst hfA
      have hbpc2 : sA.bpc = s.bpc := by unfold Fs.bpc; rw [hspc2, hspc1]
      rw [hbpc2] at h
      match hs2 : seek_to_cluster sA f.start_cluster (f.position / s.bpc) with
      | .error e =>
        rw [hs2] at h
        exact absurd h (by simp)
      | .ok cl2 =>
        simp only [hs2] at h
        match hcp : write_copy_loop sA size 0 f.position cl2 fuel with
        | none =>
          rw [hcp] at h
          exact absurd h (by simp)
        | some (.error e) =>
          rw [hcp] at h
          exact absurd h (by simp)
        | some (.ok (t, q, cEnd)) =>
          simp only [hcp] at h
          obtain ⟨ht, hq⟩ :=
            write_copy_loop_result fuel sA size 0 f.position cl2 t q cEnd
              (by omega) (by omega) hcp
          unfold write_tail at h
          simp only [] at h
          obtain ⟨hTa, hTb, hTc⟩ := write_len_arith s.bpc f.position size f.file_size hb hsz
          by_cases hgrow : f.file_size < q
          · rw [if_pos hgrow] at h
            rw [if_neg (by simp; omega)] at h
            simp only [Option.some.injEq, Except.ok.injEq, Prod.mk.injEq] at h
            obtain ⟨hsA, htot, hf2⟩ := h
            subst hsA
            subst htot
            subst hf2
            refine ⟨l2, hch2, ?_, rfl, by simp; omega, by simp; omega, by omega,
              by omega, by rw [hspc2, hspc1]⟩
            simp only [hbpc2]
            have hfq : q = max f.file_size (f.position + size) := by omega
            rw [hfq, hTc, ← hinv]
            by_cases hk : (f.position + size + s.bpc - 1) / s.bpc - l.length = 0
            · rw [if_pos hk] at hlen2
              omega
            · rw [if_neg hk] at hlen2
              omega
          · rw [if_neg hgrow] at h
            rw [if_neg (by simp)] at h
            simp only [Option.some.injEq, Except.ok.injEq, Prod.mk.injEq] at h
            obtain ⟨hsA, htot, hf2⟩ := h
            subst hsA
            subst htot
            subst hf2
            refine ⟨l2, hch2, ?_, rfl, by simp; omega, by simp; omega, by omega,
              by omega, by rw [hspc2, hspc1]⟩
            simp only [hbpc2]
            have hcple : (f.position + size + s.bpc - 1) / s.bpc ≤
                (f.file_size + s.bpc - 1) / s.bpc :=
              Nat.div_le_div_right (by omega)
            rw [← hinv]
            rw [if_pos (by omega)] at hlen2
            omega

end Fat32

namespace Fat32

theorem create_ok {s s1 : Fs} {f1 : File} (h : fat32_create s = .ok (s1, f1))
    (hspc : 0 < s.spc) :
    (∃ l, Chain s1.fat f1.start_cluster l ∧
      l.length = max 1 ((f1.file_size + s1.bpc - 1) / s1.bpc)) ∧
    f1.file_size = 0 ∧ f1.is_open = true ∧ f1.attributes = 0x20 ∧
    s1.clusterCount = s.clusterCount ∧ s1.spc = s.spc := by
  unfold fat32_create create_alloc at h
  match hg : get_next_free_cluster s with
  | .error e =>
    rw [hg] at h
    exact absurd h (by simp)
  | .ok nc =>
    obtain ⟨hnc2, hfree, hbound⟩ := gnfc_ok s nc hg
    have hw := write_fat_ok s nc EOC hnc2
    simp only [hg, hw, Except.ok.injEq, Prod.mk.injEq] at h
    obtain ⟨hs1, hf1⟩ := h
    subst hs1
    subst hf1
    obtain ⟨hfat, hcc, hspcq⟩ :=
      dec_free_hint_parts { s with fat := fatUpd s.fat nc EOC }
    have hspc1 : (dec_free_hint { s with fat := fatUpd s.fat nc EOC }).spc = s.spc := hspcq
    have hb1 : 0 < (dec_free_hint { s with fat := fatUpd s.fat nc EOC }).bpc := by
      unfold Fs.bpc
      rw [hspc1]
      exact Nat.mul_pos hspc (by norm_num)
    refine ⟨⟨[nc], ?_, ?_⟩, rfl, rfl, rfl, hcc, hspcq⟩
    · rw [hfat]
      refine Chain.single hnc2 ?_
      rw [rdf_fatUpd_self _ _ _ eoc_lt_two_pow]
    · simp only [List.length_singleton, zeroFile]
      rw [Nat.div_eq_of_lt (by omega)]
      omega

/-- The claim's operation alphabet on an already-created file: `fat32_write`
of `size` bytes (with the given loop fuel) and `fat32_seek`. -/
inductive FileOp where
  | write (size fuel : Nat)
  | seek (position : Nat)

/-- `.write n _` writes at least one byte. -/
def FileOp.sizePos : FileOp → Prop
  | .write n _ => 1 ≤ n
  | .seek _ => True

/-- Run one operation against a volume state and handle. -/
def runOp (s : Fs) (f : File) : FileOp → Option (Except Err (Fs × File))
  | .write n fuel =>
    match fat32_write s f n fuel with
    | none => none
    | some (.error e) => some (.error e)
    | some (.ok (s2, _, f2)) => some (.ok (s2, f2))
  | .seek p =>
    match fat32_seek f p with
    | .error e => some (.error e)
    | .ok f2 => some (.ok (s, f2))

/-- Run a sequence of operations, stopping at the first failure. -/
def runOps (s : Fs) (f : File) : List FileOp → Option (Except Err (Fs × File))
  | [] => some (.ok (s, f))
  | op :: rest =>
    match runOp s f op with
    | none => none
    | some (.error e) => some (.error e)
    | some (.ok (s2, f2)) => runOps s2 f2 rest

/--
No write in the sequence wraps the 32-bit position arithmetic: at the
moment each write runs, `position + size + bytes_per_cluster ≤ 2^32`, so
the C's uint32 `end_pos` (fat32.c:1521), the two cluster-count ceilings
computed from it and from `file_size`, and the 32-bit `size_t`
`pos_in_file` of the copy loop (fat32.c:1565) all stay below `2^32`.
-/
def noWrapRun (s : Fs) (f : File) : List FileOp → Prop
  | [] => True
  | .write n fuel :: rest =>
    f.position + n + s.bpc ≤ 2 ^ 32 ∧
    match fat32_write s f n fuel with
    | some (.ok (s2, _, f2)) => noWrapRun s2 f2 rest
    | _ => True
  | .seek p :: rest =>
    match fat32_seek f p with
    | .ok f2 => noWrapRun s f2 rest
    | _ => True

theorem runOps_inv :
    ∀ (ops : List FileOp) (s : Fs) (f : File) (s2 : Fs) (f2 : File) (l : List Nat),
    runOps s f ops = some (.ok (s2, f2)) →
    (∀ op ∈ ops, op.sizePos) →
    noWrapRun s f ops →
    Chain s.fat f.start_cluster l →
    l.length = max 1 ((f.file_size + s.bpc - 1) / s.bpc) →
    f.file_size + s.bpc ≤ 2 ^ 32 →
    s.clusterCount + 2 ≤ EOC → 0 < s.spc →
    ∃ l2, Chain s2.fat f2.start_cluster l2 ∧
      l2.length = max 1 ((f2.file_size + s2.bpc - 1) / s2.bpc) := by
  intro ops
  induction ops with
  | nil =>
    intro s f s2 f2 l h hpos hnwr hch hinv hfsb hgeom hspc
    unfold runOps at h
    simp only [Option.some.injEq, Except.ok.injEq, Prod.mk.injEq] at h
    obtain ⟨hs, hf⟩ := h
    subst hs
    subst hf
    exact ⟨l, hch, hinv⟩
  | cons op rest ih =>
    intro s f s2 f2 l h hpos hnwr hch hinv hfsb hgeom hspc
    cases op with
    | write n fuel =>
      simp only [runOps, runOp] at h
      simp only [noWrapRun] at hnwr
      obtain ⟨hnw1, hnw2⟩ := hnwr
      match hw : fat32_write s f n fuel with
      | none =>
        rw [hw] at h
        exact absurd h (by simp)
      | some (.error e) =>
        rw [hw] at h
        exact absurd h (by simp)
      | some (.ok (sW, tot, fW)) =>
        simp only [hw] at h
        simp only [hw] at hnw2
        have hn : 1 ≤ n := hpos (FileOp.write n fuel) (List.mem_cons_self _ _)
        obtain ⟨l2, hch2, hlen2, -, hfseq, -, -, hcc2, hspc2⟩ :=
          fat32_write_preserves hch hinv hgeom hn hspc hnw1 hfsb hw
        have hbpcW : sW.bpc = s.bpc := by unfold Fs.bpc; rw [hspc2]
        exact ih sW fW s2 f2 l2 h (fun op hop => hpos op (List.mem_cons_of_mem _ hop))
          hnw2 hch2 hlen2 (by rw [hbpcW, hfseq]; omega) (by omega) (by omega)
    | seek p =>
      simp only [runOps, runOp] at h
      rcases Bool.eq_false_or_eq_true f.is_open with ho | ho
      swap
      · unfold fat32_seek at h
        rw [if_pos (by simp [ho])] at h
        exact absurd h (by simp)
      · have hseq : fat32_seek f p = .ok { f with position := p } := by
          unfold fat32_seek
          rw [if_neg (by simp [ho])]
        rw [hseq] at h
        simp only [] at h
        simp only [noWrapRun, hseq] at hnwr
        exact ih s { f with position := p } s2 f2 l h
          (fun op hop => hpos op (List.mem_cons_of_mem _ hop)) hnwr hch hinv hfsb
          hgeom hspc

end Fat32

namespace Fat32

/-- An empty, freshly formatted volume model: all FAT entries free, both
FSInfo hints unknown, 70000 clusters of one sector each. -/
def cexC2fs : Fs :=
  { fat := fun _ => 0, freeCount := UNKNOWN, nextFree := UNKNOWN,
    clusterCount := 70000, spc := 1 }

/-- `cexC2fs` after `fat32_create` claimed cluster 2 as the new file's
start cluster and marked it end-of-chain. -/
def cexC2fs1 : Fs := { cexC2fs with fat := fatUpd cexC2fs.fat 2 EOC }

/-- The handle `fat32_create` returns on `cexC2fs`. -/
def cexC2file : File :=
  { zeroFile with
    is_open := true, attributes := 0x20, start_cluster := 2, current_cluster := 2 }

end Fat32

/--
Counterexample to claim C2 as stated: the claim says a file of size 0 owns
no clusters (start cluster 0), including a file freshly created by
`create()` before any write.  In the code, `link_entry` (fat32.c:1227-1238)
pre-allocates a start cluster for every newly created file: on the empty
volume `cexC2fs`, `fat32_create` returns a handle with logical size 0 whose
start cluster is 2 (not 0), and cluster 2's FAT entry is the end-of-chain
marker, so the size-0 file owns exactly one cluster, not
`ceil(0 / clusterSize) = 0` clusters.
-/
theorem claim_C2_counterexample :
    Fat32.fat32_create Fat32.cexC2fs = .ok (Fat32.cexC2fs1, Fat32.cexC2file) ∧
    Fat32.cexC2file.file_size = 0 ∧
    Fat32.cexC2file.start_cluster ≠ 0 ∧
    Fat32.Chain Fat32.cexC2fs1.fat Fat32.cexC2file.start_cluster [2] :=
  ⟨rfl, rfl, by decide, Fat32.Chain.single (by decide) (by decide)⟩

/--
Claim C2 (amended): for every file freshly created by `fat32_create` and
every successful sequence of seeks and writes of at least one byte, none of
whose writes wraps the 32-bit position arithmetic
(`position + size + bytes_per_cluster ≤ 2^32` whenever a write runs),
leaving the volume at `s2` and the handle at `f2`, the file's cluster
chain has exactly `max 1 (ceil(file_size / clusterSize))` clusters — one
cluster for size 0, because `link_entry` pre-allocates the start cluster
at creation — and the chain terminates in an end-of-chain marker.  The
no-wrap condition is necessary: a write whose uint32 `end_pos`
(fat32.c:1521) wraps leaves `position`/`file_size` near 0 while the
position walk has already grown the chain to cover the pre-wrap position.
-/
theorem claim_C2_amended {s s1 : Fat32.Fs} {f1 : Fat32.File}
    (ops : List Fat32.FileOp) {s2 : Fat32.Fs} {f2 : Fat32.File}
    (hcreate : Fat32.fat32_create s = .ok (s1, f1))
    (hops : Fat32.runOps s1 f1 ops = some (.ok (s2, f2)))
    (hpos : ∀ op ∈ ops, op.sizePos)
    (hnwr : Fat32.noWrapRun s1 f1 ops)
    (hgeom : s.clusterCount + 2 ≤ Fat32.EOC)
    (hspc : 0 < s.spc)
    (hbpc32 : s.bpc ≤ 2 ^ 32) :
    ∃ l, Fat32.Chain s2.fat f2.start_cluster l ∧
      l.length = max 1 ((f2.file_size + s2.bpc - 1) / s2.bpc) ∧
      ∃ hne : l ≠ [], Fat32.EOC ≤ Fat32.rdf s2.fat (l.getLast hne) := by
  obtain ⟨⟨l1, hch1, hinv1⟩, hfs0, -, -, hcc1, hspc1⟩ := Fat32.create_ok hcreate hspc
  have hbpc1 : s1.bpc = s.bpc := by unfold Fat32.Fs.bpc; rw [hspc1]
  have hfsb1 : f1.file_size + s1.bpc ≤ 2 ^ 32 := by rw [hfs0, hbpc1]; omega
  obtain ⟨l2, hch2, hinv2⟩ :=
    Fat32.runOps_inv ops s1 f1 s2 f2 l1 hops hpos hnwr hch1 hinv1 hfsb1
      (by omega) (by omega)
  exact ⟨l2, hch2, hinv2, Fat32.chain_ne_nil hch2, Fat32.chain_last_eoc hch2⟩

/--
Witness for claim C2 (amended) at a concrete input: create a file on the
empty volume `cexC2fs`, then write one byte at position 0 (no 32-bit
wrap); the resulting chain is the single cluster 2, matching
`max 1 (ceil(1 / 512)) = 1`, and ends in an end-of-chain entry.
-/
theorem claim_C2_witness :
    Fat32.fat32_create Fat32.cexC2fs = .ok (Fat32.cexC2fs1, Fat32.cexC2file) ∧
    ∃ s2 f2, Fat32.runOps Fat32.cexC2fs1 Fat32.cexC2file [Fat32.FileOp.write 1 2] =
        some (.ok (s2, f2)) ∧
      ∃ l, Fat32.Chain s2.fat f2.start_cluster l ∧
        l.length = max 1 ((f2.file_size + s2.bpc - 1) / s2.bpc) ∧
        ∃ hne : l ≠ [], Fat32.EOC ≤ Fat32.rdf s2.fat (l.getLast hne) :=
  ⟨rfl, _, _, rfl,
    claim_C2_amended [Fat32.FileOp.write 1 2]
      (rfl : Fat32.fat32_create Fat32.cexC2fs = .ok (Fat32.cexC2fs1, Fat32.cexC2file))
      rfl
      (by intro op hop; rw [List.mem_singleton] at hop; subst hop; exact Nat.le_refl 1)
      ⟨by decide, True.intro⟩
      (by decide) (by decide) (by decide)⟩

namespace Fat32

theorem cluster_pos_step (spc pos btc : Nat) (hspc : 0 < spc)
    (hb1 : 1 ≤ btc) (hle : btc ≤ 512 - pos % (spc * 512) % 512)
    (hcross : (pos + btc) % (spc * 512) = 0) :
    (pos + btc) / (spc * 512) = pos / (spc * 512) + 1 := by
  have hB0 : 0 < spc * 512 := Nat.mul_pos hspc (by norm_num)
  have hqr := Nat.div_add_mod pos (spc * 512)
  have hr512 := Nat.div_add_mod (pos % (spc * 512)) 512
  have h1 : pos % (spc * 512) / 512 < spc :=
    (Nat.div_lt_iff_lt_mul (by norm_num)).mpr (Nat.mod_lt _ hB0)
  have hub : pos + btc ≤ spc * 512 * (pos / (spc * 512)) + spc * 512 := by omega
  have hmul := Nat.div_add_mod (pos + btc) (spc * 512)
  rw [hcross, Nat.add_zero] at hmul
  have h2 : pos / (spc * 512) < (pos + btc) / (spc * 512) := by
    by_contra hc
    push_neg at hc
    have := Nat.mul_le_mul_left (spc * 512) hc
    omega
  have h3 : (pos + btc) / (spc * 512) ≤ pos / (spc * 512) + 1 := by
    by_contra hc
    push_neg at hc
    have hge : pos / (spc * 512) + 2 ≤ (pos + btc) / (spc * 512) := by omega
    have := Nat.mul_le_mul_left (spc * 512) hge
    rw [Nat.mul_add] at this
    omega
  omega

theorem cluster_pos_stay (spc pos btc : Nat) (hspc : 0 < spc)
    (hle : btc ≤ 512 - pos % (spc * 512) % 512)
    (hncross : (pos + btc) % (spc * 512) ≠ 0) :
    (pos + btc) / (spc * 512) = pos / (spc * 512) := by
  have hB0 : 0 < spc * 512 := Nat.mul_pos hspc (by norm_num)
  have hqr := Nat.div_add_mod pos (spc * 512)
  have hr512 := Nat.div_add_mod (pos % (spc * 512)) 512
  have h1 : pos % (spc * 512) / 512 < spc :=
    (Nat.div_lt_iff_lt_mul (by norm_num)).mpr (Nat.mod_lt _ hB0)
  have hub : pos + btc ≤ spc * 512 * (pos / (spc * 512)) + spc * 512 := by omega
  have hmod := Nat.div_add_mod (pos + btc) (spc * 512)
  have hmodlt : (pos + btc) % (spc * 512) < spc * 512 := Nat.mod_lt _ hB0
  have hmono : pos / (spc * 512) ≤ (pos + btc) / (spc * 512) :=
    Nat.div_le_div_right (Nat.le_add_right _ _)
  by_contra hc
  have h2 : pos / (spc * 512) + 1 ≤ (pos + btc) / (spc * 512) := by omega
  have h3 := Nat.mul_le_mul_left (spc * 512) h2
  rw [Nat.mul_add, Nat.mul_one] at h3
  omega

theorem read_loop_ok {s : Fs} {start : Nat} {l : List Nat} (hch : Chain s.fat start l)
    (hspc : 0 < s.spc) :
    ∀ (fuel size total : Nat) (f : File),
    total ≤ size →
    size - total ≤ fuel →
    f.position + (size - total) ≤ l.length * s.bpc →
    (total < size → ∃ hidx : f.position / s.bpc < l.length,
      f.current_cluster = l.get ⟨f.position / s.bpc, hidx⟩) →
    ∃ f2, fat32_read_loop s size total f fuel = some (.ok (size, f2)) ∧
      f2.position = f.position + (size - total) := by
  have hbpc : s.bpc = s.spc * 512 := rfl
  have hb : 0 < s.bpc := Nat.mul_pos hspc (by norm_num)
  intro fuel
  induction fuel with
  | zero =>
    intro size total f hts hfuel hcov hcur
    refine ⟨f, ?_, by omega⟩
    unfold fat32_read_loop
    rw [if_neg (by omega), show total = size from by omega]
  | succ m ih =>
    intro size total f hts hfuel hcov hcur
    by_cases hlt : total < size
    swap
    · refine ⟨f, ?_, by omega⟩
      unfold fat32_read_loop
      rw [if_neg hlt, show total = size from by omega]
    obtain ⟨hidx, hcurv⟩ := hcur hlt
    have hbl : f.position % s.bpc % 512 < 512 := Nat.mod_lt _ (by norm_num)
    have hbtc1 : 1 ≤ min (512 - f.position % s.bpc % 512) (size - total) := by omega
    have hbtcb : min (512 - f.position % s.bpc % 512) (size - total) ≤
        512 - f.position % s.bpc % 512 := min_le_left _ _
    have hbtcs : min (512 - f.position % s.bpc % 512) (size - total) ≤ size - total :=
      min_le_right _ _
    unfold fat32_read_loop
    rw [if_pos hlt]
    simp only []
    by_cases hcross :
        (f.position + min (512 - f.position % s.bpc % 512) (size - total)) % s.bpc = 0 ∧
        total + min (512 - f.position % s.bpc % 512) (size - total) < size
    · rw [if_pos hcross]
      have hstep : (f.position + min (512 - f.position % s.bpc % 512) (size - total)) /
          s.bpc = f.position / s.bpc + 1 := by
        rw [hbpc]
        exact cluster_pos_step s.spc f.position _ hspc hbtc1 (by rw [← hbpc]; omega)
          (by rw [← hbpc]; exact hcross.1)
      have hidx2 : (f.position + min (512 - f.position % s.bpc % 512) (size - total)) /
          s.bpc < l.length := by
        have hplt : f.position + min (512 - f.position % s.bpc % 512) (size - total) <
            l.length * s.bpc := by omega
        exact (Nat.div_lt_iff_lt_mul hb).mpr hplt
      have hsucc := chain_get_succ hch (f.position / s.bpc) (by omega)
      rw [hcurv, read_fat_ok s _ (chain_mem_two_le hch _ (List.get_mem _ _ _))]
      simp only []
      rw [hsucc.1, if_neg (by have := hsucc.1 ▸ hsucc.2; omega)]
      obtain ⟨f2, hf2, hp2⟩ := ih size
        (total + min (512 - f.position % s.bpc % 512) (size - total))
        { f with
          position := f.position + min (512 - f.position % s.bpc % 512) (size - total),
          current_cluster := l.get ⟨f.position / s.bpc + 1, by omega⟩ }
        (by omega) (by omega) (by simp only []; omega)
        (fun h2 => ⟨by simp only []; omega,
          by
            simp only []
            exact get_idx_congr (by omega) _⟩)
      exact ⟨f2, hf2, by simp only [] at hp2; omega⟩
    · rw [if_neg hcross]
      obtain ⟨f2, hf2, hp2⟩ := ih size
        (total + min (512 - f.position % s.bpc % 512) (size - total))
        { f with
          position := f.position + min (512 - f.position % s.bpc % 512) (size - total) }
        (by omega) (by omega) (by simp only []; omega)
        (fun h2 => by
          have hnc : (f.position + min (512 - f.position % s.bpc % 512) (size - total)) %
              s.bpc ≠ 0 := by
            intro hz
            exact hcross ⟨hz, by omega⟩
          have hstay : (f.position + min (512 - f.position % s.bpc % 512) (size - total)) /
              s.bpc = f.position / s.bpc := by
            rw [hbpc]
            exact cluster_pos_stay s.spc f.position _ hspc (by rw [← hbpc]; omega)
              (by rw [← hbpc]; exact hnc)
          refine ⟨by simp only []; omega, ?_⟩
          simp only []
          rw [hcurv]
          exact get_idx_congr (by omega) _)
      exact ⟨f2, hf2, by simp only [] at hp2; omega⟩

end Fat32

namespace Fat32

/-- A one-file volume for exercising `fat32_read`: cluster 2 holds the file
and is marked end-of-chain. -/
def wC6fs : Fs :=
  { fat := fatUpd (fun _ => 0) 2 EOC, freeCount := UNKNOWN, nextFree := UNKNOWN,
    clusterCount := 70000, spc := 1 }

/-- An open 3-byte file on `wC6fs` with the position at the start. -/
def wC6file : File :=
  { zeroFile with
    is_open := true, attributes := 0x20, start_cluster := 2, current_cluster := 2,
    file_size := 3 }

/-- The same handle seeked past end-of-file. -/
def wC6fileEof : File := { wC6file with position := 5 }

end Fat32

/--
Claim C6: for an open non-directory handle, `fat32_read` with the position
at or past the file size returns success with zero bytes read (not an
error); and with the position below the file size, a request larger than
the remaining bytes is clipped to exactly `file_size - position` bytes:
when the handle's chain covers the file (the create/write invariant) and
the loop fuel covers the clipped byte count, the read succeeds returning
exactly `file_size - position` bytes.
-/
theorem claim_C6 {s : Fat32.Fs} {f : Fat32.File} {size fuel : Nat} (l : List Nat)
    (ho : f.is_open = true) (hdir : f.attributes &&& 0x10 = 0) :
    (f.file_size ≤ f.position → Fat32.fat32_read s f size fuel = some (.ok (0, f))) ∧
    (f.position < f.file_size → f.file_size - f.position < size →
      Fat32.Chain s.fat f.start_cluster l →
      l.length = max 1 ((f.file_size + s.bpc - 1) / s.bpc) →
      0 < s.spc → f.file_size - f.position ≤ fuel →
      ∃ f2, Fat32.fat32_read s f size fuel =
        some (.ok (f.file_size - f.position, f2))) := by
  constructor
  · intro heof
    unfold Fat32.fat32_read
    rw [if_neg (by simp [ho]), if_neg (not_not_intro hdir), if_pos heof]
  · intro hlt hclip hch hinv hspc hfuel
    have hb : 0 < s.bpc := Nat.mul_pos hspc (by norm_num)
    have hlen0 : 0 < l.length := Fat32.chain_length_pos hch
    have hposidx : f.position / s.bpc < l.length := by
      have h1 : f.position / s.bpc ≤ (f.file_size - 1) / s.bpc :=
        Nat.div_le_div_right (by omega)
      have h2 : (f.file_size - 1 + s.bpc) / s.bpc = (f.file_size - 1) / s.bpc + 1 :=
        Nat.add_div_right _ hb
      have h3 : (f.file_size - 1 + s.bpc) / s.bpc ≤ (f.file_size + s.bpc - 1) / s.bpc :=
        Nat.div_le_div_right (by omega)
      omega
    have hseek : Fat32.seek_to_cluster s f.start_cluster (f.position / s.bpc) =
        .ok (l.get ⟨f.position / s.bpc, hposidx⟩) := by
      have hs := Fat32.seek_ok hch (f.position / s.bpc) 0 (by omega)
      rw [Fat32.chain_head hch hlen0] at hs
      rw [hs]
      exact congrArg Except.ok (Fat32.get_idx_congr (by omega) _)
    have hcov : f.file_size ≤ l.length * s.bpc := by
      have hdm := Nat.div_add_mod (f.file_size + s.bpc - 1) s.bpc
      have hmlt : (f.file_size + s.bpc - 1) % s.bpc < s.bpc := Nat.mod_lt _ hb
      have h2 : s.bpc * ((f.file_size + s.bpc - 1) / s.bpc) ≤ s.bpc * l.length :=
        Nat.mul_le_mul_left _ (by omega)
      have h3 := Nat.mul_comm s.bpc l.length
      omega
    obtain ⟨f2, hloop, -⟩ := Fat32.read_loop_ok hch hspc fuel
      (f.file_size - f.position) 0
      { f with current_cluster := l.get ⟨f.position / s.bpc, hposidx⟩ }
      (by omega) (by omega) (by simp only []; omega)
      (fun h0 => ⟨hposidx, rfl⟩)
    refine ⟨f2, ?_⟩
    unfold Fat32.fat32_read
    rw [if_neg (by simp [ho]), if_neg (not_not_intro hdir), if_neg (by omega)]
    simp only []
    rw [if_pos hclip, hseek]
    simp only []
    exact hloop

/--
Witness for claim C6 at concrete inputs on the volume `wC6fs`: reading 5
bytes of the 3-byte file with the position at 5 (past end-of-file) returns
success with 0 bytes; reading 100 bytes with the position at 0 returns
success with exactly 3 bytes.
-/
theorem claim_C6_witness :
    (Fat32.fat32_read Fat32.wC6fs Fat32.wC6fileEof 5 10 =
      some (.ok (0, Fat32.wC6fileEof))) ∧
    ∃ f2, Fat32.fat32_read Fat32.wC6fs Fat32.wC6file 100 10 = some (.ok (3, f2)) := by
  constructor
  · exact (claim_C6 [2] (rfl : Fat32.wC6fileEof.is_open = true) rfl).1 (by decide)
  · exact (claim_C6 [2] (rfl : Fat32.wC6file.is_open = true) rfl).2 (by decide)
      (by decide) (Fat32.Chain.single (by decide) (by decide)) (by decide) (by decide)
      (by decide)
